import Mathlib

/-!
Verification of the vault consistency engine of an Obsidian MCP server.

The definitions below are a shallow embedding of the TypeScript sources:
  - `src/utils/tags.ts`        (tag model: normalize / validate / remove / parse / stringify)
  - `src/utils/path.ts`        (path guard: normalizePath / checkPathSafety / validateVaultPath)
  - `src/tools/rename-tag/index.ts` (batch tag rename)
  - `src/tools/add-tags/index.ts`   (batch tag addition)
  - the edit-note tool (backup / rollback editor) and the link rewriter
    (`updateLinksInFile` / `updateVaultLinks`).

Strings are processed on their underlying `List Char`; JavaScript semantics
(ASCII case folding, `String.prototype.trim` on ASCII whitespace, code-unit
lexicographic `Array.prototype.sort`) are modelled on the ASCII fragment the
program actually manipulates.
-/

namespace ObsidianMcp

/-! ## Character helpers (ASCII fragment of the JS string primitives) -/

/-- `[a-z0-9]`: the left class of the camelCase boundary regex
`/([a-z0-9])([A-Z])/g` in `normalizeTag`. -/
def isLowerDigit (c : Char) : Bool :=
  (97 ≤ c.toNat && c.toNat ≤ 122) || (48 ≤ c.toNat && c.toNat ≤ 57)

/-- `[A-Z]`: the right class of the camelCase boundary regex. -/
def isUpperAZ (c : Char) : Bool :=
  65 ≤ c.toNat && c.toNat ≤ 90

/-- `[a-zA-Z0-9]`, the alphanumeric class used by `validateTag` and the
inline-tag token regex. -/
def isAlnum (c : Char) : Bool :=
  isLowerDigit c || isUpperAZ c

/-- ASCII case folding of one character, as done by
`String.prototype.toLowerCase` on the ASCII range. -/
def lowerChar (c : Char) : Char :=
  if h : 65 ≤ c.toNat ∧ c.toNat ≤ 90 then
    Char.ofNatAux (c.toNat + 32) (Or.inl (by omega))
  else c

/-! ## `normalizeTag` / `validateTag` (src/utils/tags.ts) -/

/-- One global pass of `part.replace(/([a-z0-9])([A-Z])/g, '$1-$2')`:
after a match the regex continues after the matched pair, otherwise it
advances a single character. -/
def camelIns : List Char → List Char
  | [] => []
  | [a] => [a]
  | a :: b :: t =>
    if isLowerDigit a && isUpperAZ b then a :: '-' :: b :: camelIns t
    else a :: camelIns (b :: t)

/-- `tag.replace(/^#/, '')`: strips at most one leading `#`. -/
def stripHash : List Char → List Char
  | [] => []
  | c :: t => if c = '#' then t else c :: t

/-- `String.prototype.split('/')` on character lists. -/
def splitSlash : List Char → List (List Char)
  | [] => [[]]
  | c :: t =>
    if c = '/' then [] :: splitSlash t
    else
      match splitSlash t with
      | s :: rest => (c :: s) :: rest
      | [] => [[c]]

/-- `Array.prototype.join('/')` on character lists. -/
def joinSlash : List (List Char) → List Char
  | [] => []
  | [s] => s
  | s :: rest => s ++ '/' :: joinSlash rest

/-- `normalizeTag(tag, normalize)` from src/utils/tags.ts: strips a leading
`#`; when `normalize` is set, splits on `/`, inserts `-` at each
lowercase/digit→uppercase boundary and lowercases each segment. -/
def normalizeTag (tag : String) (normalize : Bool := true) : String :=
  let t := stripHash tag.data
  if !normalize then ⟨t⟩
  else ⟨joinSlash ((splitSlash t).map (fun part => (camelIns part).map lowerChar))⟩

/-- `validateTag(tag)` from src/utils/tags.ts: strips a leading `#` and
requires the regex `^[a-zA-Z0-9]+(\/[a-zA-Z0-9]+)*$`, i.e. every
`/`-separated segment nonempty and alphanumeric. -/
def validateTag (tag : String) : Bool :=
  let t := stripHash tag.data
  (splitSlash t).all (fun seg => !seg.isEmpty && seg.all isAlnum)

/-! ## Tag relations and patterns (src/utils/tags.ts) -/

/-- `s.startsWith(pre)`, on the character level. -/
def strStartsWith (s pre : String) : Bool :=
  pre.data.isPrefixOf s.data

/-- `isParentTag(parentTag, childTag)`: `childTag.startsWith(parentTag + '/')`. -/
def isParentTag (parentTag childTag : String) : Bool :=
  strStartsWith childTag (parentTag ++ "/")

/-- Glob matching: `*` matches any run of characters, every other pattern
character is literal.  This is `matchesTagPattern`'s regex
`^pattern.replace(/\*!/g,'.*')$` (with `/` kept literal) for patterns whose
non-`*` characters are not regex metacharacters — which holds for every
tag-shaped pattern. -/
def globMatchAux : Nat → List Char → List Char → Bool
  | 0, _, _ => false
  | _ + 1, [], s => s.isEmpty
  | fuel + 1, p :: ps, s =>
    if p = '*' then
      globMatchAux fuel ps s ||
        (match s with
          | [] => false
          | _ :: t => globMatchAux fuel (p :: ps) t)
    else
      match s with
      | [] => false
      | c :: t => p = c && globMatchAux fuel ps t

/-- Glob matching; every step consumes a pattern or subject character, so
the fuel `|p| + |s| + 1` is never exhausted. -/
def globMatch (p s : List Char) : Bool :=
  globMatchAux (p.length + s.length + 1) p s

/-- `matchesTagPattern(pattern, tag)` from src/utils/tags.ts. -/
def matchesTagPattern (pattern tag : String) : Bool :=
  globMatch pattern.data tag.data

/-- Result of `getRelatedTags`. -/
structure RelatedTags where
  parents : List String
  children : List String
  deriving Repr, DecidableEq

/-- `getRelatedTags(tag, allTags)` from src/utils/tags.ts: `parents` are the
proper hierarchy prefixes of `tag` (joined up to each separator), `children`
are all members of `allTags` having `tag + "/"` as a prefix. -/
def getRelatedTags (tag : String) (allTags : List String) : RelatedTags :=
  let parts := splitSlash tag.data
  let parents := (List.range (parts.length - 1)).map
    (fun i => String.mk (joinSlash (parts.take (i + 1))))
  let children := allTags.filter (fun otherTag => isParentTag tag otherTag)
  ⟨parents, children⟩

/-! ## JS array / string helpers used by the tag mutators -/

/-- The default string comparator of `Array.prototype.sort()`: code-unit
lexicographic "less than". -/
def jsStrLt : List Char → List Char → Bool
  | [], [] => false
  | [], _ :: _ => true
  | _ :: _, [] => false
  | a :: as, b :: bs => a.toNat < b.toNat || (a == b && jsStrLt as bs)

/-- Insertion step of `Array.prototype.sort()` on strings. -/
def insertSorted (x : String) : List String → List String
  | [] => [x]
  | y :: t => if jsStrLt x.data y.data then x :: y :: t else y :: insertSorted x t

/-- `Array.prototype.sort()` with the default string comparator. -/
def jsSortStrings (l : List String) : List String :=
  l.foldr insertSorted []

/-- `Array.from(new Set(xs))`: deduplication keeping first occurrences. -/
def jsDedup (l : List String) : List String :=
  l.foldl (fun acc x => if x ∈ acc then acc else acc ++ [x]) []

/-- `Map.prototype.get`: later insertions shadow earlier ones. -/
def jsMapGet {β : Type} (m : List (String × β)) (k : String) : Option β :=
  (m.reverse.find? (fun p => p.1 == k)).map (fun p => p.2)

/-- JS `String.prototype.trim` whitespace on the ASCII range. -/
def isJsSpace (c : Char) : Bool :=
  c = ' ' || c = '\t' || c = '\n' || c = '\r' || c = '\x0b' || c = '\x0c'

/-- `String.prototype.trim` (ASCII fragment). -/
def jsTrim (l : List Char) : List Char :=
  ((l.dropWhile isJsSpace).reverse.dropWhile isJsSpace).reverse

/-- `content.split('\n')`. -/
def splitNl : List Char → List (List Char)
  | [] => [[]]
  | c :: t =>
    if c = '\n' then [] :: splitNl t
    else
      match splitNl t with
      | s :: rest => (c :: s) :: rest
      | [] => [[c]]

/-- `Array.prototype.join('\n')`. -/
def joinNl : List (List Char) → List Char
  | [] => []
  | [s] => s
  | s :: rest => s ++ '\n' :: joinNl rest

/-! ## Note and tag-change data model (src/utils/tags.ts) -/

/-- Where a tag change happened. -/
inductive TagLocation
  | frontmatter
  | content
  deriving Repr, DecidableEq

/-- A `TagChange` reporting record. -/
structure TagChange where
  tag : String
  location : TagLocation
  line : Option Nat := none
  context : Option String := none
  deriving Repr, DecidableEq

/-- The frontmatter mapping, abstracted to the shape the tag mutators use:
the `tags` key when it holds an array (`none` when the key is absent), and
the remaining key/value entries held opaquely. -/
structure Frontmatter where
  tags? : Option (List String) := none
  extra : List (String × String) := []
  deriving Repr, DecidableEq

/-- Options record shared by `removeTagsFromFrontmatter` / `removeInlineTags`. -/
structure RemovalOptions where
  normalize : Bool := true
  preserveChildren : Bool := false
  patterns : List String := []

/-- The `{removed, preserved}` partition returned by the removal functions. -/
structure RemovalReport where
  removed : List TagChange
  preserved : List TagChange
  deriving Repr, DecidableEq

/-- `removeTagsFromFrontmatter(frontmatter, tagsToRemove, options)` from
src/utils/tags.ts, including the `relatedTagsMap` that is populated only when
`preserveChildren` is set and whose `parents` list is consulted (only when
`preserveChildren` is not set) for the hierarchical match. -/
def removeTagsFromFrontmatter (fm : Frontmatter) (tagsToRemove : List String)
    (opts : RemovalOptions := {}) : Frontmatter × RemovalReport :=
  let existingTags := fm.tags?.getD []
  let relatedTagsMap : List (String × Option RelatedTags) :=
    tagsToRemove.map (fun tag =>
      (tag, if opts.preserveChildren then some (getRelatedTags tag existingTags) else none))
  let step := fun (acc : List String × List TagChange × List TagChange) (tag : String) =>
    let normalizedTag := normalizeTag tag opts.normalize
    let shouldRemove := tagsToRemove.any fun removeTag =>
      (normalizeTag removeTag opts.normalize == normalizedTag) ||
      (opts.patterns.any (fun pattern => matchesTagPattern pattern normalizedTag)) ||
      (!opts.preserveChildren &&
        (match jsMapGet relatedTagsMap removeTag with
          | some (some related) => related.parents.contains normalizedTag
          | _ => false))
    if shouldRemove then
      (acc.1, acc.2.1 ++ [⟨normalizedTag, .frontmatter, none, none⟩], acc.2.2)
    else
      (acc.1 ++ [tag], acc.2.1, acc.2.2 ++ [⟨normalizedTag, .frontmatter, none, none⟩])
  let res := existingTags.foldl step ([], [], [])
  ({ fm with tags? := some (jsSortStrings res.1) }, ⟨res.2.1, res.2.2⟩)

/-! ## The inline-tag token scanner

Models the global regex `/(?<!¬)#[a-zA-Z0-9][a-zA-Z0-9\/]*(?!¬)/g` (with `¬`
standing for a backtick) used for inline-tag matching: a `#` not preceded by
a backtick, a mandatory alphanumeric, a greedy alphanumeric-or-slash run,
and a negative backtick lookahead that on failure backtracks exactly one
character out of the greedy run (or fails the match when the run is empty). -/

/-- A piece of a scanned line: a literal character or a matched tag token
(stored without its leading `#`). -/
inductive TagTok
  | lit (c : Char)
  | tok (name : List Char)
  deriving Repr, DecidableEq

/-- Fuel-driven scanner; the fuel is an upper bound on the input length,
consumed at least one character per step. -/
def tagScanAux : Nat → Option Char → List Char → List TagTok
  | 0, _, _ => []
  | _ + 1, _, [] => []
  | fuel + 1, prev, c :: t =>
    if c = '#' && prev != some '`' then
      match t with
      | [] => [TagTok.lit c]
      | d :: t' =>
        if isAlnum d then
          let star := t'.takeWhile (fun x => isAlnum x || x = '/')
          let rest := t'.drop star.length
          match rest with
          | '`' :: _ =>
            if h : star.isEmpty then
              TagTok.lit c :: tagScanAux fuel (some c) t
            else
              let name := d :: star.dropLast
              TagTok.tok name ::
                tagScanAux fuel
                  (some (star.getLast (fun he => h (by rw [he]; rfl))))
                  (star.drop (star.length - 1) ++ rest)
          | _ =>
            let name := d :: star
            TagTok.tok name :: tagScanAux fuel (some ((d :: star).getLast (by simp))) rest
        else
          TagTok.lit c :: tagScanAux fuel (some c) t
    else
      TagTok.lit c :: tagScanAux fuel (some c) t

/-- Scan one line for inline tag tokens. -/
def tagScan (l : List Char) : List TagTok :=
  tagScanAux (l.length + 1) none l

/-- `str.includes(pat)`: substring containment. -/
def containsSeq (pat l : List Char) : Bool :=
  (List.tails l).any (fun t => pat.isPrefixOf t)

/-- `line.trim().startsWith('¬¬¬')` (three backticks): the fence heuristic. -/
def isFenceLine (l : List Char) : Bool :=
  ['`', '`', '`'].isPrefixOf (jsTrim l)

/-- Sequential update of the `inHtmlComment` flag:
`if (line.includes('<!--')) inHtmlComment = true;`
`if (line.includes('-->')) inHtmlComment = false;`. -/
def commentStateAfter (old : Bool) (line : List Char) : Bool :=
  let s := if containsSeq "<!--".data line then true else old
  if containsSeq "-->".data line then false else s

/-- The names (without `#`) of all tag tokens on a line,
`line.match(TAG_PATTERN) || []`. -/
def lineTagNames (line : List Char) : List (List Char) :=
  (tagScan line).filterMap (fun tok =>
    match tok with
    | .tok name => some name
    | .lit _ => none)

/-- The removal predicate shared by `removeInlineTags`'s replacement
callback: direct normalized match, glob pattern match, or — when
`preserveChildren` is unset — strict-descendant match via `isParentTag`. -/
def inlineShouldRemove (tagsToRemove : List String) (opts : RemovalOptions)
    (normalizedTag : String) : Bool :=
  tagsToRemove.any fun removeTag =>
    (normalizeTag removeTag opts.normalize == normalizedTag) ||
    (opts.patterns.any (fun pattern => matchesTagPattern pattern normalizedTag)) ||
    (!opts.preserveChildren && isParentTag removeTag normalizedTag)

/-- One line of `removeInlineTags` outside fences/comments: apply the
replacement callback to every matched token, building the rewritten line and
the removed/preserved records (context is the trimmed original line). -/
def removeInlineLine (tagsToRemove : List String) (opts : RemovalOptions)
    (lineNum : Nat) (line : List Char) :
    List Char × List TagChange × List TagChange :=
  (tagScan line).foldl
    (fun acc tok =>
      match tok with
      | .lit c => (acc.1 ++ [c], acc.2.1, acc.2.2)
      | .tok name =>
        let normalizedTag := normalizeTag ⟨name⟩ opts.normalize
        let change : TagChange :=
          ⟨normalizedTag, .content, some (lineNum + 1), some ⟨jsTrim line⟩⟩
        if inlineShouldRemove tagsToRemove opts normalizedTag then
          (acc.1, acc.2.1 ++ [change], acc.2.2)
        else
          (acc.1 ++ '#' :: name, acc.2.1, acc.2.2 ++ [change]))
    ([], [], [])

/-- The final `reduce` of `removeInlineTags`: collapse runs of blank lines
down to one. -/
def collapseBlank (lines : List (List Char)) : List (List Char) :=
  lines.foldl
    (fun acc line =>
      if jsTrim line = [] then
        match acc.getLast? with
        | some last => if jsTrim last = [] then acc else acc ++ [line]
        | none => acc ++ [line]
      else acc ++ [line])
    []

/-- `removeInlineTags(content, tagsToRemove, options)` from src/utils/tags.ts:
line-oriented scan toggling fence state on fence lines and comment state on
comment markers; tokens inside fences/comments are always preserved; outside,
the callback removes matching tokens; finally blank-line runs are collapsed. -/
def removeInlineTags (content : String) (tagsToRemove : List String)
    (opts : RemovalOptions := {}) : String × RemovalReport :=
  let lines := splitNl content.data
  let res := lines.enum.foldl
    (fun (acc : (Bool × Bool) × List (List Char) × List TagChange × List TagChange)
        (p : Nat × List Char) =>
      let (lineNum, line) := p
      let (inCodeBlock, inHtmlComment) := acc.1
      if isFenceLine line then
        ((!inCodeBlock, inHtmlComment), acc.2.1 ++ [line], acc.2.2.1, acc.2.2.2)
      else
        let comment := commentStateAfter inHtmlComment line
        if inCodeBlock || comment then
          let kept := (lineTagNames line).map (fun name =>
            (⟨⟨name⟩, .content, some (lineNum + 1), some ⟨jsTrim line⟩⟩ : TagChange))
          ((inCodeBlock, comment), acc.2.1 ++ [line], acc.2.2.1, acc.2.2.2 ++ kept)
        else
          let r := removeInlineLine tagsToRemove opts lineNum line
          ((inCodeBlock, comment), acc.2.1 ++ [r.1], acc.2.2.1 ++ r.2.1,
            acc.2.2.2 ++ r.2.2))
    ((false, false), [], [], [])
  (⟨joinNl (collapseBlank res.2.1)⟩, ⟨res.2.2.1, res.2.2.2⟩)

/-! ## Note parsing and serialization (src/utils/tags.ts)

The YAML codec is an external collaborator (the `yaml` package); the note
functions are parameterized over it. -/

/-- The external structured-document codec interface. -/
structure YamlCodec (α : Type) where
  parse : String → Option α
  stringify : α → String
  isEmptyObj : α → Bool
  emptyObj : α

/-- `ParsedNote`. -/
structure ParsedNote (α : Type) where
  frontmatter : α
  content : String
  hasFrontmatter : Bool
  deriving Repr, DecidableEq

/-- Search for the first occurrence of `"\n---\n"`; the lazy group
`([\s\S]*?)` of the frontmatter regex takes everything before it. -/
def splitFmAux : List Char → Option (List Char × List Char)
  | [] => none
  | c :: t =>
    if ['\n', '-', '-', '-', '\n'].isPrefixOf (c :: t) then
      some ([], (c :: t).drop 5)
    else (splitFmAux t).map (fun p => (c :: p.1, p.2))

/-- The anchored match of `/^---\n([\s\S]*?)\n---\n([\s\S]*)$/`. -/
def splitFrontmatter (s : String) : Option (String × String) :=
  match s.data with
  | '-' :: '-' :: '-' :: '\n' :: rest =>
    (splitFmAux rest).map (fun p => (⟨p.1⟩, ⟨p.2⟩))
  | _ => none

/-- `parseNote(content)` from src/utils/tags.ts.  A YAML parse failure is the
thrown `InvalidFrontmatter` McpError, modelled as `Except.error`; a null
parse (`frontmatter || {}`) is folded into the codec returning its empty
mapping. -/
def parseNote {α : Type} (c : YamlCodec α) (content : String) :
    Except Unit (ParsedNote α) :=
  match splitFrontmatter content with
  | none => .ok ⟨c.emptyObj, content, false⟩
  | some (fmText, body) =>
    match c.parse fmText with
    | none => .error ()
    | some fm => .ok ⟨fm, body, true⟩

/-- `stringifyNote(parsed)` from src/utils/tags.ts. -/
def stringifyNote {α : Type} (c : YamlCodec α) (p : ParsedNote α) : String :=
  if !p.hasFrontmatter || c.isEmptyObj p.frontmatter then p.content
  else "---\n" ++ ⟨jsTrim (c.stringify p.frontmatter).data⟩ ++ "\n---\n\n"
    ++ ⟨jsTrim p.content.data⟩

/-! ## The vault-wide tag rename (src/tools/rename-tag/index.ts) -/

/-- `s.replace(new RegExp('^' + pre), repl)` for a literal (regex-safe)
prefix `pre`, as built from a normalized tag. -/
def jsReplacePrefix (s pre repl : String) : String :=
  if strStartsWith s pre then repl ++ ⟨s.data.drop pre.data.length⟩ else s

/-- An `{oldTag, newTag}` change record of `updateFrontmatterTags`. -/
structure FmChange where
  oldTag : String
  newTag : String
  deriving Repr, DecidableEq

/-- The per-tag body of `updateFrontmatterTags`'s `map`: the first
replacement whose normalized old tag equals the normalized tag or is a
strict hierarchy ancestor rewrites the matched prefix; otherwise the
normalized tag is returned unchanged and no change is recorded. -/
def fmRenameStep (replacements : List (String × String)) (normalize : Bool)
    (tag : String) : String × Option FmChange :=
  match replacements.find? (fun r =>
      normalizeTag tag normalize == normalizeTag r.1 normalize ||
        strStartsWith (normalizeTag tag normalize)
          (normalizeTag r.1 normalize ++ "/")) with
  | some r =>
    (jsReplacePrefix (normalizeTag tag normalize) (normalizeTag r.1 normalize)
        (normalizeTag r.2 normalize),
      some ⟨normalizeTag tag normalize,
        jsReplacePrefix (normalizeTag tag normalize) (normalizeTag r.1 normalize)
          (normalizeTag r.2 normalize)⟩)
  | none => (normalizeTag tag normalize, none)

/-- `updateFrontmatterTags(frontmatter, replacements, normalize)` from
src/tools/rename-tag/index.ts: maps every tag through `fmRenameStep`, then
stores `Array.from(new Set(updatedTags)).sort()`. -/
def updateFrontmatterTags (fm : Frontmatter)
    (replacements : List (String × String)) (normalize : Bool) :
    Frontmatter × List FmChange :=
  match fm.tags? with
  | none => (fm, [])
  | some tags =>
    let results := tags.map (fmRenameStep replacements normalize)
    ({ fm with tags? := some (jsSortStrings (jsDedup (results.map (·.1)))) },
      results.filterMap (·.2))

/-- An inline change record of `updateInlineTags`. -/
structure InlineChange where
  oldTag : String
  newTag : String
  line : Nat
  deriving Repr, DecidableEq

/-- One line of `updateInlineTags` outside fences/comments: every matched
token whose normalized form equals or descends from a replacement's old tag
has that prefix rewritten; other tokens are emitted verbatim. -/
def updateInlineLine (replacements : List (String × String)) (normalize : Bool)
    (lineNum : Nat) (line : List Char) : List Char × List InlineChange :=
  (tagScan line).foldl
    (fun acc tok =>
      match tok with
      | .lit c => (acc.1 ++ [c], acc.2)
      | .tok name =>
        let step := fmRenameStep replacements normalize ⟨name⟩
        match step.2 with
        | some change =>
          (acc.1 ++ '#' :: step.1.data,
            acc.2 ++ [⟨change.oldTag, change.newTag, lineNum + 1⟩])
        | none => (acc.1 ++ '#' :: name, acc.2))
    ([], [])

/-- `updateInlineTags(content, replacements, normalize)` from
src/tools/rename-tag/index.ts. -/
def updateInlineTags (content : String)
    (replacements : List (String × String)) (normalize : Bool) :
    String × List InlineChange :=
  let lines := splitNl content.data
  let res := lines.enum.foldl
    (fun (acc : (Bool × Bool) × List (List Char) × List InlineChange)
        (p : Nat × List Char) =>
      let (lineNum, line) := p
      let (inCodeBlock, inHtmlComment) := acc.1
      if isFenceLine line then
        ((!inCodeBlock, inHtmlComment), acc.2.1 ++ [line], acc.2.2)
      else
        let comment := commentStateAfter inHtmlComment line
        if inCodeBlock || comment then
          ((inCodeBlock, comment), acc.2.1 ++ [line], acc.2.2)
        else
          let r := updateInlineLine replacements normalize lineNum line
          ((inCodeBlock, comment), acc.2.1 ++ [r.1], acc.2.2 ++ r.2))
    ((false, false), [], [])
  (⟨joinNl res.2.1⟩, res.2.2)


/-! ## Filesystem model and the batch mutator (src/tools/rename-tag/index.ts) -/

/-- The filesystem seen by the batch operations: content per absolute path,
`none` for a missing or unreadable file. -/
def FS : Type := String → Option String

/-- `fs.writeFile`. -/
def FS.write (fs : FS) (p content : String) : FS :=
  fun q => if q = p then some content else fs q

/-- A successful per-file entry of the rename report. -/
structure TagChangeReport where
  filePath : String
  oldTags : List String
  newTags : List String
  location : TagLocation
  line : Option Nat := none
  deriving Repr, DecidableEq

/-- One iteration of `processBatch`'s per-file callback: read (a
missing/unreadable or empty read is recorded as a failure), parse (an
invalid frontmatter is caught and recorded), update frontmatter and inline
tags, and write only when there is at least one change. -/
def processFileStep (c : YamlCodec Frontmatter)
    (replacements : List (String × String)) (normalize : Bool)
    (acc : List TagChangeReport × List (String × String) × FS)
    (filePath : String) : List TagChangeReport × List (String × String) × FS :=
  match acc.2.2 filePath with
  | none =>
    (acc.1, acc.2.1 ++ [(filePath, "File not found or cannot be read")], acc.2.2)
  | some content =>
    if content.isEmpty then
      (acc.1, acc.2.1 ++ [(filePath, "File not found or cannot be read")], acc.2.2)
    else
      match parseNote c content with
      | .error () =>
        (acc.1, acc.2.1 ++ [(filePath, "Invalid frontmatter YAML format")], acc.2.2)
      | .ok parsed =>
        let fmRes := updateFrontmatterTags parsed.frontmatter replacements normalize
        let inRes := updateInlineTags parsed.content replacements normalize
        if fmRes.2.length > 0 || inRes.2.length > 0 then
          let updatedNote :=
            stringifyNote c ⟨fmRes.1, inRes.1, parsed.hasFrontmatter⟩
          (acc.1
              ++ (if fmRes.2.length > 0 then
                  [⟨filePath, fmRes.2.map (·.oldTag), fmRes.2.map (·.newTag),
                    .frontmatter, none⟩]
                else [])
              ++ (if inRes.2.length > 0 then
                  [⟨filePath, inRes.2.map (·.oldTag), inRes.2.map (·.newTag),
                    .content, inRes.2.head?.map (·.line)⟩]
                else []),
            acc.2.1, acc.2.2.write filePath updatedNote)
        else (acc.1, acc.2.1, acc.2.2)

/-- `processBatch(files, start, batchSize, replacements, normalize)` from
src/tools/rename-tag/index.ts over `files.slice(start, start + batchSize)`:
per file, read (a missing/unreadable or empty read is recorded as a
failure), parse (an invalid frontmatter is caught and recorded), update
frontmatter and inline tags, and write only when there is at least one
change.  The concurrent `Promise.all` fan-out is modelled sequentially in
list order; per-file failures are recorded and never interrupt the fold. -/
def processBatch (c : YamlCodec Frontmatter) (fs0 : FS) (files : List String)
    (start batchSize : Nat) (replacements : List (String × String))
    (normalize : Bool) :
    List TagChangeReport × List (String × String) × FS :=
  ((files.drop start).take batchSize).foldl
    (processFileStep c replacements normalize) ([], [], fs0)

/-- The pure per-file outcome of one `processBatch` iteration, as a function
of that file's own initial content alone: its success entries, its failure
entry if any, and the content written if any. -/
def fileOutcome (c : YamlCodec Frontmatter)
    (replacements : List (String × String)) (normalize : Bool)
    (filePath : String) (content? : Option String) :
    List TagChangeReport × Option (String × String) × Option String :=
  match content? with
  | none => ([], some (filePath, "File not found or cannot be read"), none)
  | some content =>
    if content.isEmpty then
      ([], some (filePath, "File not found or cannot be read"), none)
    else
      match parseNote c content with
      | .error () => ([], some (filePath, "Invalid frontmatter YAML format"), none)
      | .ok parsed =>
        let fmRes := updateFrontmatterTags parsed.frontmatter replacements normalize
        let inRes := updateInlineTags parsed.content replacements normalize
        if fmRes.2.length > 0 || inRes.2.length > 0 then
          ((if fmRes.2.length > 0 then
              [⟨filePath, fmRes.2.map (·.oldTag), fmRes.2.map (·.newTag),
                .frontmatter, none⟩]
            else [])
            ++ (if inRes.2.length > 0 then
                [⟨filePath, inRes.2.map (·.oldTag), inRes.2.map (·.newTag),
                  .content, inRes.2.head?.map (·.line)⟩]
              else []),
            none,
            some (stringifyNote c ⟨fmRes.1, inRes.1, parsed.hasFrontmatter⟩))
        else ([], none, none)

/-- The batch loop of `renameTag`: `for (i = 0; i < files.length; i += batchSize)`,
concatenating the per-batch reports and threading the filesystem.  The fuel
bounds the iteration count; `files.length + 1` suffices for any positive
`batchSize` (the source loops forever on `batchSize = 0`). -/
def renameTagLoop (c : YamlCodec Frontmatter) (files : List String)
    (batchSize : Nat) (replacements : List (String × String))
    (normalize : Bool) :
    Nat → Nat → FS → List TagChangeReport × List (String × String) × FS
  | 0, _, fs => ([], [], fs)
  | fuel + 1, i, fs =>
    if i < files.length then
      let r := processBatch c fs files i batchSize replacements normalize
      let rest := renameTagLoop c files batchSize replacements normalize
        fuel (i + batchSize) r.2.2
      (r.1 ++ rest.1, r.2.1 ++ rest.2.1, rest.2.2)
    else ([], [], fs)

/-- The final report of `renameTag`. -/
structure RenameTagReport where
  successful : List TagChangeReport
  failed : List (String × String)
  deriving Repr, DecidableEq

/-- `renameTag(vaultPath, oldTag, newTag, options)` from
src/tools/rename-tag/index.ts, over the vault's markdown file list: throws
(`Except.error`) only for an invalid tag format, then processes every batch
and returns the combined report (backup creation and the best-effort
saved-search rewrite touch no note content and are outside this model). -/
def renameTag (c : YamlCodec Frontmatter) (fs : FS) (files : List String)
    (oldTag newTag : String) (normalize : Bool := true)
    (batchSize : Nat := 50) : Except Unit (RenameTagReport × FS) :=
  if !(validateTag oldTag && validateTag newTag) then .error ()
  else
    let r := renameTagLoop c files batchSize [(oldTag, newTag)] normalize
      (files.length + 1) 0 fs
    .ok (⟨r.1, r.2.1⟩, r.2.2)

/-! ## The batch tag addition (src/tools/add-tags/index.ts) -/

/-- `addTagsToFrontmatter(frontmatter, newTags, normalize)` from
src/utils/tags.ts: every incoming tag is validated (the first invalid tag
throws, discarding the local copy, so no partial mutation escapes); the
result's tags array is the sorted deduplicated union. -/
def addTagsToFrontmatter (fm : Frontmatter) (newTags : List String)
    (normalize : Bool := true) : Except String Frontmatter :=
  if newTags.any (fun tag => !validateTag tag) then
    .error "Invalid tag format"
  else
    .ok { fm with tags? := some (jsSortStrings (jsDedup
      (fm.tags?.getD [] ++ newTags.map (fun tag => normalizeTag tag normalize)))) }

/-- `location` argument of `add-tags`. -/
inductive TagAddLocation
  | frontmatter
  | content
  | both
  deriving Repr, DecidableEq

/-- `position` argument of `add-tags`. -/
inductive TagAddPosition
  | start
  | «end»
  deriving Repr, DecidableEq

/-- The result record of the tag addition, `TagOperationResult`. -/
structure TagOperationResult where
  success : Bool
  successCount : Nat
  totalCount : Nat
  failedItems : List (String × String)
  details : List (String × List TagChange)
  deriving Repr, DecidableEq

/-- `path.join(vaultPath, filename)` for a plain relative filename. -/
def pathJoin (vaultPath filename : String) : String :=
  vaultPath ++ "/" ++ filename

/-- `addTags(vaultPath, files, tags, location, normalize, position)` from
src/tools/add-tags/index.ts.  Every per-file step (the containment check —
a no-op, see `validateVaultPathThrows` —, existence check, read, parse,
frontmatter update, inline append, write) runs inside the per-file
`try/catch`, whose failures are recorded in `failedItems`; the function
itself always returns a result. -/
def addTags (c : YamlCodec Frontmatter) (fs0 : FS) (vaultPath : String)
    (files : List String) (tags : List String)
    (location : TagAddLocation := .both) (normalize : Bool := true)
    (position : TagAddPosition := .«end») : TagOperationResult × FS :=
  let r := files.foldl
    (fun (acc : Nat × List (String × String) × List (String × List TagChange) × FS)
        filename =>
      let (successCount, failedItems, details, fs) := acc
      let fullPath := pathJoin vaultPath filename
      let perFile : Except String (Nat × FS × List TagChange) :=
        match fs fullPath with
        | none => .error "File not found"
        | some content =>
          if content.isEmpty then .error "Failed to read file"
          else
            match parseNote c content with
            | .error () => .error "Invalid frontmatter YAML format"
            | .ok parsed => do
              let fmStep :
                  Except String (Frontmatter × Bool × List TagChange) :=
                if location != TagAddLocation.content then do
                  let updatedFrontmatter ← addTagsToFrontmatter
                    parsed.frontmatter tags normalize
                  if parsed.frontmatter ≠ updatedFrontmatter then
                    pure (updatedFrontmatter, true,
                      tags.map (fun tag =>
                        ⟨if normalize then normalizeTag tag else tag,
                          .frontmatter, none, none⟩))
                  else pure (parsed.frontmatter, false, [])
                else pure (parsed.frontmatter, false, [])
              match fmStep with
              | .error e => .error e
              | .ok (fm', fmModified, fmChanges) =>
                let hasFm' := if fmModified then true else parsed.hasFrontmatter
                let inline :=
                  if location != TagAddLocation.frontmatter then
                    let tagString := String.intercalate " "
                      ((tags.filter validateTag).map (fun tag =>
                        "#" ++ (if normalize then normalizeTag tag else tag)))
                    if tagString.isEmpty then (parsed.content, false, [])
                    else
                      (match position with
                        | .start => tagString ++ "\n\n" ++ ⟨jsTrim parsed.content.data⟩
                        | .«end» => (⟨jsTrim parsed.content.data⟩ : String) ++ "\n\n" ++ tagString,
                        true,
                        tags.map (fun tag =>
                          (⟨if normalize then normalizeTag tag else tag,
                            .content, none, none⟩ : TagChange)))
                  else (parsed.content, false, [])
                let modified := fmModified || inline.2.1
                if modified then
                  let updatedContent :=
                    stringifyNote c ⟨fm', inline.1, hasFm'⟩
                  .ok (1, fs.write fullPath updatedContent,
                    fmChanges ++ inline.2.2)
                else .ok (0, fs, fmChanges ++ inline.2.2)
      match perFile with
      | .error e =>
        (successCount, failedItems ++ [(filename, e)],
          details ++ [(filename, [])], fs)
      | .ok (inc, fs', changes) =>
        (successCount + inc, failedItems,
          details ++ [(filename, changes)], fs'))
    (0, [], [], fs0)
  (⟨r.2.1.isEmpty, r.1, files.length, r.2.1, r.2.2.1⟩, r.2.2.2)


/-! ## The path guard (src/utils/path.ts)

The server runs on Node whose `path` module is platform-bound; the model
fixes the posix flavor (forward-slash separators), which is the platform
the containment claims exercise.  Trailing-slash preservation of
`path.normalize` is not modelled; no caller passes trailing slashes. -/

/-- Split on both separators, as `split(/[\\/]/)`. -/
def splitSeps : List Char → List (List Char)
  | [] => [[]]
  | c :: t =>
    if c = '/' || c = '\\' then [] :: splitSeps t
    else
      match splitSeps t with
      | s :: rest => (c :: s) :: rest
      | [] => [[c]]

/-- The invalid-filename class `/[<>"|?*]/` of `normalizePath`. -/
def winInvalidFilenameChar (c : Char) : Bool :=
  c = '<' || c = '>' || c = '"' || c = '|' || c = '?' || c = '*'

/-- `/^[A-Za-z]:$/`. -/
def isDriveOnly : List Char → Bool
  | [c, ':'] => isUpperAZ c || (97 ≤ c.toNat && c.toNat ≤ 122)
  | _ => false

/-- The abstract process working directory; the relative-path branches of
`normalizePath` resolve against it. -/
def cwd : String := "/cwd"

/-- The component stack of `path.posix.normalize`: empty and `.` segments
drop, `..` pops a previous real segment, keeps piling up at the front of a
relative path and vanishes above the root of an absolute one. -/
def normStack (isAbs : Bool) (comps : List (List Char)) : List (List Char) :=
  comps.foldl
    (fun acc c =>
      if c = [] || c = ['.'] then acc
      else if c = ['.', '.'] then
        match acc.getLast? with
        | some last => if last = ['.', '.'] then acc ++ [c] else acc.dropLast
        | none => if isAbs then [] else [c]
      else acc ++ [c])
    []

/-- `path.posix.normalize`. -/
def posixNormalize (s : String) : String :=
  let isAbs := ['/'].isPrefixOf s.data
  let comps := normStack isAbs (splitSlash s.data)
  let core := String.intercalate "/" (comps.map (fun c => (⟨c⟩ : String)))
  if isAbs then "/" ++ core
  else if core.isEmpty then "." else core

/-- `path.posix.resolve` of a single path. -/
def posixResolve (s : String) : String :=
  if ['/'].isPrefixOf s.data then posixNormalize s
  else posixNormalize (cwd ++ "/" ++ s)

/-- ASCII `toLowerCase` of a string. -/
def asciiLower (s : String) : String :=
  ⟨s.data.map lowerChar⟩

/-- The restricted-directory prefixes of `normalizePath`. -/
def restrictedDirs : List String :=
  ["C:\\Windows", "C:\\Program Files", "C:\\Program Files (x86)",
    "C:\\ProgramData"]

/-- `./` or `../` prefix. -/
def startsWithRel (s : String) : Bool :=
  ['.', '/'].isPrefixOf s.data || ['.', '.', '/'].isPrefixOf s.data

/-- `normalizePath(inputPath)` from src/utils/path.ts (the McpError throws
are `Except.error`): rejects empty input and invalid filename characters;
passes UNC paths through with forward slashes; normalizes drive-letter
paths; rejects restricted system prefixes; resolves relative paths against
the working directory; otherwise only converts backslashes. -/
def normalizePath (inputPath : String) : Except Unit String :=
  if inputPath.isEmpty then .error ()
  else
    let filename := (splitSeps inputPath.data).getLastD []
    if filename.any winInvalidFilenameChar
        || (filename.contains ':' && !isDriveOnly filename) then .error ()
    else if ['\\', '\\'].isPrefixOf inputPath.data then
      .ok ⟨'/' :: '/' ::
        (inputPath.data.drop 2).map (fun c => if c = '\\' then '/' else c)⟩
    else
      match inputPath.data with
      | c :: ':' :: sep :: _ =>
        if (isUpperAZ c || (97 ≤ c.toNat && c.toNat ≤ 122))
            && (sep = '/' || sep = '\\') then
          .ok ⟨(posixNormalize inputPath).data.map
            (fun ch => if ch = '\\' then '/' else ch)⟩
        else normalizePathRest inputPath
      | _ => normalizePathRest inputPath
  where
    /-- The tail of `normalizePath` after the UNC / drive-letter branches. -/
    normalizePathRest (inputPath : String) : Except Unit String :=
      if restrictedDirs.any (fun d =>
          strStartsWith (asciiLower inputPath) (asciiLower d)) then .error ()
      else if startsWithRel inputPath then
        .ok (posixResolve (posixNormalize inputPath))
      else
        let n2 : String :=
          ⟨inputPath.data.map (fun c => if c = '\\' then '/' else c)⟩
        if startsWithRel n2 then .ok (posixResolve n2) else .ok n2

/-- `path.posix.dirname`. -/
def dirname (s : String) : String :=
  match s.data.reverse.dropWhile (fun c => c ≠ '/') with
  | [] => "."
  | ['/'] => "/"
  | _ :: t => ⟨t.reverse⟩

/-- The catch block of `checkPathSafety`: for a target that fails to
resolve, resolve its parent directory instead, and treat any further
failure as outside the vault. -/
def checkSafetyCatch (realp : String → Option String)
    (resolvedPath resolvedBasePath : String) : Except Unit Bool :=
  match realp (dirname resolvedPath) with
  | some realParentPath =>
    match normalizePath realParentPath with
    | .ok normalizedParent =>
      .ok (strStartsWith normalizedParent resolvedBasePath)
    | .error _ => .ok false
  | none => .ok false

/-- `checkPathSafety(basePath, targetPath)` from src/utils/path.ts: the
filesystem's `realpath` is the partial function `realp` (`none` models a
thrown resolution error). -/
def checkPathSafety (realp : String → Option String)
    (basePath targetPath : String) : Except Unit Bool := do
  let resolvedPath ← normalizePath targetPath
  let resolvedBasePath ← normalizePath basePath
  match realp resolvedPath with
  | some realPath =>
    match normalizePath realPath with
    | .ok normalizedReal =>
      if !(strStartsWith normalizedReal resolvedBasePath) then pure false
      else pure (strStartsWith resolvedPath resolvedBasePath)
    | .error _ => checkSafetyCatch realp resolvedPath resolvedBasePath
  | none => checkSafetyCatch realp resolvedPath resolvedBasePath

/-- A JavaScript `Promise` holding a deferred computation. -/
structure JsPromise (α : Type) where
  val : α

/-- Every object — in particular every pending `Promise` — is truthy. -/
def jsTruthy {α : Type} (_ : JsPromise α) : Bool :=
  true

/-- `validateVaultPath(vaultPath, targetPath)` from src/utils/path.ts:
`if (!checkPathSafety(vaultPath, targetPath)) throw new McpError(...)`.
`checkPathSafety` is `async` and the call is not awaited, so the condition
tests the truthiness of the Promise object itself.  Returns whether the
`PathOutsideVault` McpError is thrown. -/
def validateVaultPathThrows (realp : String → Option String)
    (vaultPath targetPath : String) : Bool :=
  !(jsTruthy ⟨checkPathSafety realp vaultPath targetPath⟩)

/-- `path.join(vaultPath, ...segments)` (posix): concatenate then
normalize. -/
def pathJoinMany (vaultPath : String) (segments : List String) : String :=
  posixNormalize (String.intercalate "/" (vaultPath :: segments))

/-- `safeJoinPath(vaultPath, ...segments)` from src/utils/path.ts. -/
def safeJoinPath (realp : String → Option String) (vaultPath : String)
    (segments : List String) : Except Unit String := do
  let resolved ← normalizePath (pathJoinMany vaultPath segments)
  if validateVaultPathThrows realp vaultPath resolved then .error ()
  else pure resolved

/-- A symlink-free filesystem where every path resolves to itself. -/
def realpId : String → Option String :=
  fun p => some p


/-! ## The rollback editor (the edit-note tool)

`editNote` is modelled as straight-line state passing over a filesystem and
a failure schedule: each fallible `fs` primitive consumes one schedule entry
(`false` injects the corresponding OS error, an exhausted schedule means
success), so a single run can simulate a write failure followed by
transient or persistent restore failures. -/

/-- Errors of the editor.  `notFound`, `rollbackFailure` and `wrapped` are
`McpError`s; `fsErr` is a raw OS error (later wrapped by
`handleFsError`). -/
inductive JsError
  | fsErr (op : String) (path : String)
  | notFound (filename : String)
  | rollbackFailure (orig rollback : JsError) (backupPath : String)
  | wrapped (orig : JsError)
  deriving Repr, DecidableEq

/-- `error instanceof McpError`. -/
def JsError.isMcpError : JsError → Bool
  | .fsErr _ _ => false
  | _ => true

/-- `handleFsError`: rethrows an `McpError`, wraps anything else. -/
def handleFsError (e : JsError) : JsError :=
  if e.isMcpError then e else .wrapped e

/-- `fs.unlink`'s removal. -/
def FS.erase (fs : FS) (p : String) : FS :=
  fun q => if q = p then none else fs q

/-- The editor state: the filesystem and the remaining failure schedule. -/
structure EditorSt where
  fs : FS
  sched : List Bool

/-- Consume one schedule entry (an exhausted schedule reads as success). -/
def takeSched (st : EditorSt) : Bool × EditorSt :=
  (st.sched.headD true, ⟨st.fs, st.sched.tail⟩)

/-- `fs.copyFile(src, dst)`. -/
def fsCopyFile (src dst : String) (st : EditorSt) :
    Except JsError Unit × EditorSt :=
  let (ok, st') := takeSched st
  if !ok then (.error (.fsErr "copyFile" dst), st')
  else
    match st'.fs src with
    | some c => (.ok (), ⟨st'.fs.write dst c, st'.sched⟩)
    | none => (.error (.fsErr "copyFile" src), st')

/-- `fs.writeFile(p, content)`. -/
def fsWriteFile (p content : String) (st : EditorSt) :
    Except JsError Unit × EditorSt :=
  let (ok, st') := takeSched st
  if ok then (.ok (), ⟨st'.fs.write p content, st'.sched⟩)
  else (.error (.fsErr "writeFile" p), st')

/-- `fs.unlink(p)`. -/
def fsUnlink (p : String) (st : EditorSt) : Except JsError Unit × EditorSt :=
  let (ok, st') := takeSched st
  if !ok then (.error (.fsErr "unlink" p), st')
  else
    match st'.fs p with
    | some _ => (.ok (), ⟨st'.fs.erase p, st'.sched⟩)
    | none => (.error (.fsErr "unlink" p), st')

/-- `fs.readFile(p, "utf-8")`. -/
def fsReadFile (p : String) (st : EditorSt) :
    Except JsError String × EditorSt :=
  let (ok, st') := takeSched st
  if !ok then (.error (.fsErr "readFile" p), st')
  else
    match st'.fs p with
    | some c => (.ok c, st')
    | none => (.error (.fsErr "readFile" p), st')

/-- The non-delete edit operations. -/
inductive EditOp
  | append
  | prepend
  | replace
  deriving Repr, DecidableEq

/-- The content transform of the `append`/`prepend`/`replace` cases. -/
def applyEdit (op : EditOp) (existingContent newContent : String) : String :=
  match op with
  | .append =>
    (⟨jsTrim existingContent.data⟩ : String)
      ++ (if (jsTrim existingContent.data).isEmpty then "" else "\n\n")
      ++ newContent
  | .prepend =>
    newContent
      ++ (if (jsTrim existingContent.data).isEmpty then "" else "\n\n")
      ++ ⟨jsTrim existingContent.data⟩
  | .replace => newContent

/-- The run's outcome: the thrown error (if any) and the final state. -/
structure EditOutcome where
  result : Except JsError Unit
  st : EditorSt

/-- The outer catch of `editNote`: if the backup still exists, a best-effort
restore-and-delete whose own failure is only logged; then the error is
rethrown (raw errors via `handleFsError`). -/
def editOuterCatch (fullPath backupPath : String) (e : JsError)
    (st : EditorSt) : EditOutcome :=
  let st2 :=
    if (st.fs backupPath).isSome then
      match fsCopyFile backupPath fullPath st with
      | (.ok _, st1) =>
        match fsUnlink backupPath st1 with
        | (_, stu) => stu
      | (.error _, st1) => st1
    else st
  ⟨.error (handleFsError e), st2⟩

/-- The inner catch of the `append`/`prepend`/`replace` case: restore the
original bytes from the backup and delete it; if that itself fails, throw
the compound `rollbackFailure` naming both errors and the preserved backup
path; then rethrow into the outer catch. -/
def editInnerCatch (fullPath backupPath : String) (e : JsError)
    (st : EditorSt) : EditOutcome :=
  if (st.fs backupPath).isSome then
    match fsCopyFile backupPath fullPath st with
    | (.ok _, st1) =>
      match fsUnlink backupPath st1 with
      | (.ok _, st2) => editOuterCatch fullPath backupPath e st2
      | (.error rb, st2) =>
        editOuterCatch fullPath backupPath
          (.rollbackFailure e rb backupPath) st2
    | (.error rb, st1) =>
      editOuterCatch fullPath backupPath
        (.rollbackFailure e rb backupPath) st1
  else editOuterCatch fullPath backupPath e st

/-- `editNote(vaultPath, filename, operation, content)` from the edit-note
tool, for the non-delete operations: back up an existing target, read,
transform, write, delete the backup; on any failure restore from the backup
before the error propagates.  (The initial `validateVaultPath` call never
throws — see `validateVaultPathThrows` — and is omitted.) -/
def editNote (op : EditOp) (fullPath content : String) (ts : Nat)
    (st0 : EditorSt) : EditOutcome :=
  let backupPath := fullPath ++ "." ++ toString ts ++ ".backup"
  match (if (st0.fs fullPath).isSome
      then fsCopyFile fullPath backupPath st0
      else (.ok (), st0)) with
  | (.error e, st1) => editOuterCatch fullPath backupPath e st1
  | (.ok _, st1) =>
    if !(st1.fs fullPath).isSome then
      editOuterCatch fullPath backupPath (.notFound fullPath) st1
    else
      match fsReadFile fullPath st1 with
      | (.error e, st2) => editInnerCatch fullPath backupPath e st2
      | (.ok existingContent, st2) =>
        match fsWriteFile fullPath (applyEdit op existingContent content) st2 with
        | (.error e, st3) => editInnerCatch fullPath backupPath e st3
        | (.ok _, st3) =>
          match fsUnlink backupPath st3 with
          | (.error e, st4) => editInnerCatch fullPath backupPath e st4
          | (.ok _, st4) => ⟨.ok (), st4⟩


/-! ## The link rewriter (updateLinksInFile / updateVaultLinks) -/

/-- `path.basename(p, ".md")`: the last `/`-separated component, with a
proper `.md` suffix stripped. -/
def basenameNoMd (p : String) : List Char :=
  let base := (splitSlash p.data).getLastD []
  if base.length > 3 && ['.', 'm', 'd'].isSuffixOf base then
    base.take (base.length - 3)
  else base

/-- Match `\[\[oldName(\|[^\]]*)?\]\]` at the head of `l`; returns the
alias group (with its leading `|`) and the remainder. -/
def wikiMatchAt (oldName : List Char) (l : List Char) :
    Option (List Char × List Char) :=
  match l with
  | '[' :: '[' :: r =>
    if oldName.isPrefixOf r then
      match r.drop oldName.length with
      | ']' :: ']' :: rest => some ([], rest)
      | '|' :: r3 =>
        let a := r3.takeWhile (fun c => c ≠ ']')
        (match r3.drop a.length with
          | ']' :: ']' :: rest => some ('|' :: a, rest)
          | _ => none)
      | _ => none
    else none
  | _ => none

/-- Match `\[([^\]]*)\]\(oldName\.md\)` at the head of `l`; returns the
link-text group and the remainder. -/
def mdMatchAt (oldName : List Char) (l : List Char) :
    Option (List Char × List Char) :=
  match l with
  | '[' :: r =>
    let text := r.takeWhile (fun c => c ≠ ']')
    (match r.drop text.length with
      | ']' :: '(' :: r2 =>
        if (oldName ++ ['.', 'm', 'd', ')']).isPrefixOf r2 then
          some (text, r2.drop (oldName.length + 4))
        else none
      | _ => none)
  | _ => none

/-- `String.prototype.replace` with a global regex: left-to-right,
non-overlapping; each match's group is rendered through `mk`.  Every match
consumes at least one character, so the fuel `|l| + 1` is never
exhausted. -/
def replaceScanAux (matchAt : List Char → Option (List Char × List Char))
    (mk : List Char → List Char) : Nat → List Char → List Char
  | 0, l => l
  | _ + 1, [] => []
  | fuel + 1, c :: t =>
    match matchAt (c :: t) with
    | some (grp, rest) => mk grp ++ replaceScanAux matchAt mk fuel rest
    | none => c :: replaceScanAux matchAt mk fuel t

/-- Global replace over a whole character list. -/
def replaceScan (matchAt : List Char → Option (List Char × List Char))
    (mk : List Char → List Char) (l : List Char) : List Char :=
  replaceScanAux matchAt mk (l.length + 1) l

/-- The two successive `replace` calls of the move/rename branch of
`updateLinksInFile`: `[[Old...]]` → `[[New...]]` (alias preserved), then
`[text](Old.md)` → `[text](New.md)`. -/
def renameTransform (oldName newName : List Char) (content : List Char) :
    List Char :=
  replaceScan (mdMatchAt oldName)
    (fun text => '[' :: text ++ ']' :: '(' :: newName ++ ['.', 'm', 'd', ')'])
    (replaceScan (wikiMatchAt oldName)
      (fun grp => '[' :: '[' :: newName ++ grp ++ [']', ']']) content)

/-- The deletion branch: each matched reference is wrapped in `~~…~~`
strikethrough instead of removed. -/
def deleteTransform (oldName : List Char) (content : List Char) : List Char :=
  replaceScan (mdMatchAt oldName)
    (fun text => '~' :: '~' :: '[' :: text
      ++ ']' :: '(' :: oldName ++ ['.', 'm', 'd', ')', '~', '~'])
    (replaceScan (wikiMatchAt oldName)
      (fun grp => '~' :: '~' :: '[' :: '[' :: oldName
        ++ grp ++ [']', ']', '~', '~']) content)

/-- The content transform of `updateLinksInFile` as a function of the
operation (`newPath = none` is a deletion). -/
def linkTransform (oldPath : String) (newPath : Option String)
    (content : String) : String :=
  match newPath with
  | none => ⟨deleteTransform (basenameNoMd oldPath) content.data⟩
  | some np =>
    ⟨renameTransform (basenameNoMd oldPath) (basenameNoMd np) content.data⟩

/-- `updateLinksInFile(filePath, oldPath, newPath)`: read (a read failure
propagates — there is no catch), rewrite, and write back only when the
content actually changed, reporting whether it did. -/
def updateLinksInFile (fs : FS) (filePath oldPath : String)
    (newPath : Option String) : Except Unit (Bool × FS) :=
  match fs filePath with
  | none => .error ()
  | some content =>
    let newContent := linkTransform oldPath newPath content
    if content ≠ newContent then .ok (true, fs.write filePath newContent)
    else .ok (false, fs)

/-- The negation of the loop's skip guard
`if (newPath && file === path.join(vaultPath, newPath)) continue`: whether
`updateVaultLinks` processes `file`. -/
def linkNotSkipped (vaultPath : String) (newPath : Option String)
    (file : String) : Bool :=
  match newPath with
  | some np => !(file == pathJoin vaultPath np)
  | none => true

/-- One iteration of `updateVaultLinks`'s loop: skip the moved note's own
(new) file, otherwise rewrite and count an actual change. -/
def updateVaultLinksStep (vaultPath oldPath : String) (newPath : Option String)
    (acc : Except Unit (Nat × FS)) (file : String) : Except Unit (Nat × FS) :=
  match acc with
  | .error e => .error e
  | .ok (n, fs) =>
    if !(linkNotSkipped vaultPath newPath file) then .ok (n, fs)
    else
      match updateLinksInFile fs file oldPath newPath with
      | .error e => .error e
      | .ok (true, fs') => .ok (n + 1, fs')
      | .ok (false, fs') => .ok (n, fs')

/-- `updateVaultLinks(vaultPath, oldPath, newPath)` over the vault's file
list: skips the moved note's own (new) file, counts exactly the files whose
content changed. -/
def updateVaultLinks (fs0 : FS) (vaultPath : String) (files : List String)
    (oldPath : String) (newPath : Option String) : Except Unit (Nat × FS) :=
  files.foldl (updateVaultLinksStep vaultPath oldPath newPath) (.ok (0, fs0))

/-- Whether a file's content is changed by the link rewrite. -/
def fileChanged (fs0 : FS) (oldPath : String) (newPath : Option String)
    (f : String) : Bool :=
  match fs0 f with
  | some content => linkTransform oldPath newPath content != content
  | none => false


/-- The two-note scenario vault after moving note B to C: note A links to B
three ways, note C is the moved note. -/
def fsL : FS := fun p =>
  if p = "/v/A.md" then some "see [[B]] and [[B|alias]] and [text](B.md)"
  else if p = "/v/C.md" then some "c"
  else none

/-- The per-segment transform of `normalizeTag`: camelCase hyphenation then
ASCII lowering. -/
def normSeg (part : List Char) : List Char :=
  (camelIns part).map lowerChar

/-- A codec that stores the raw frontmatter text; it agrees with the real
YAML codec on the concrete documents used below (`stringifyYaml` emits the
same text up to the trailing newline that `stringifyNote` trims away). -/
def rawCodec : YamlCodec String where
  parse := fun s => some s
  stringify := fun s => s
  isEmptyObj := fun s => s == ""
  emptyObj := ""

/-- The minimal codec for vaults whose notes carry no frontmatter block
(its `parse` is never consulted there). -/
def noYaml : YamlCodec Frontmatter where
  parse := fun _ => none
  stringify := fun _ => ""
  isEmptyObj := fun fm => fm.tags?.isNone && fm.extra.isEmpty
  emptyObj := {}

/-- The three-note scenario vault: notes a and c are readable and tagged
`#work`, note b is unreadable. -/
def fs3 : FS := fun p =>
  if p = "/v/a.md" then some "#work a"
  else if p = "/v/c.md" then some "#work c"
  else none

/-! ## Idempotence of `normalizeTag` -/

theorem toNat_lowerChar_of_upper {c : Char} (h : 65 ≤ c.toNat ∧ c.toNat ≤ 90) :
    (lowerChar c).toNat = c.toNat + 32 := by
  simp only [lowerChar, dif_pos h]
  simp [Char.ofNatAux, Char.toNat, UInt32.toNat]

theorem lowerChar_of_not_upper {c : Char} (h : ¬(65 ≤ c.toNat ∧ c.toNat ≤ 90)) :
    lowerChar c = c := by
  simp only [lowerChar, dif_neg h]

theorem isUpperAZ_lowerChar (c : Char) : isUpperAZ (lowerChar c) = false := by
  by_cases h : 65 ≤ c.toNat ∧ c.toNat ≤ 90
  · have := toNat_lowerChar_of_upper h
    simp only [isUpperAZ, this]
    simp only [Bool.and_eq_false_iff, decide_eq_false_iff_not]
    omega
  · rw [lowerChar_of_not_upper h]
    simp only [isUpperAZ, Bool.and_eq_false_iff, decide_eq_false_iff_not]
    omega

theorem camelIns_of_no_upper (l : List Char) (h : ∀ c ∈ l, isUpperAZ c = false) :
    camelIns l = l := by
  induction l using camelIns.induct with
  | case1 => rfl
  | case2 a => rfl
  | case3 a b t hab ih =>
    exfalso
    have hb := h b (by simp)
    simp only [Bool.and_eq_true] at hab
    rw [hab.2] at hb
    exact absurd hb (by simp)
  | case4 a b t hab ih =>
    rw [camelIns, if_neg hab]
    rw [ih (fun c hc => h c (by simp [hc]))]

theorem map_lowerChar_of_no_upper (l : List Char) (h : ∀ c ∈ l, isUpperAZ c = false) :
    l.map lowerChar = l := by
  induction l with
  | nil => rfl
  | cons a t ih =>
    have ha : isUpperAZ a = false := h a (by simp)
    have : lowerChar a = a := by
      apply lowerChar_of_not_upper
      simp only [isUpperAZ, Bool.and_eq_false_iff, decide_eq_false_iff_not] at ha
      omega
    simp [this, ih (fun c hc => h c (by simp [hc]))]

theorem splitSlash_of_no_slash (l : List Char) (h : '/' ∉ l) : splitSlash l = [l] := by
  induction l with
  | nil => rfl
  | cons c t ih =>
    have hc : c ≠ '/' := fun e => h (e ▸ List.mem_cons_self c t)
    have ht : '/' ∉ t := fun m => h (List.mem_cons_of_mem c m)
    simp only [splitSlash, if_neg hc, ih ht]

theorem splitSlash_append_slash (s r : List Char) (h : '/' ∉ s) :
    splitSlash (s ++ '/' :: r) = s :: splitSlash r := by
  induction s with
  | nil => simp [splitSlash]
  | cons c t ih =>
    have hc : c ≠ '/' := fun e => h (e ▸ List.mem_cons_self c t)
    have ht : '/' ∉ t := fun m => h (List.mem_cons_of_mem c m)
    simp only [List.cons_append, splitSlash, if_neg hc, List.append_eq, ih ht]

theorem splitSlash_joinSlash (ss : List (List Char)) (h1 : ss ≠ [])
    (h2 : ∀ s ∈ ss, '/' ∉ s) : splitSlash (joinSlash ss) = ss := by
  induction ss with
  | nil => exact absurd rfl h1
  | cons s rest ih =>
    cases rest with
    | nil => exact splitSlash_of_no_slash s (h2 s (by simp))
    | cons s' rest' =>
      have : joinSlash (s :: s' :: rest') = s ++ '/' :: joinSlash (s' :: rest') := rfl
      rw [this, splitSlash_append_slash s _ (h2 s (by simp))]
      rw [ih (by simp) (fun x hx => h2 x (List.mem_cons_of_mem s hx))]

theorem mem_camelIns (l : List Char) : ∀ c ∈ camelIns l, c ∈ l ∨ c = '-' := by
  induction l using camelIns.induct with
  | case1 => intro c hc; simp [camelIns] at hc
  | case2 a =>
    intro c hc
    simp only [camelIns] at hc
    exact Or.inl hc
  | case3 a b t hab ih =>
    intro c hc
    rw [camelIns, if_pos hab] at hc
    simp only [List.mem_cons] at hc
    rcases hc with h | h | h | h
    · exact Or.inl (by simp [h])
    · exact Or.inr h
    · exact Or.inl (by simp [h])
    · rcases ih c h with hm | he
      · exact Or.inl (by simp [hm])
      · exact Or.inr he
  | case4 a b t hab ih =>
    intro c hc
    rw [camelIns, if_neg hab] at hc
    simp only [List.mem_cons] at hc
    rcases hc with h | h
    · exact Or.inl (by simp [h])
    · rcases ih c (by simpa using h) with hm | he
      · exact Or.inl (by simp only [List.mem_cons] at hm ⊢; tauto)
      · exact Or.inr he

theorem camelIns_cons_head (a : Char) (t : List Char) :
    ∃ t', camelIns (a :: t) = a :: t' := by
  cases t with
  | nil => exact ⟨[], by simp [camelIns]⟩
  | cons b t' =>
    by_cases hab : (isLowerDigit a && isUpperAZ b) = true
    · exact ⟨'-' :: b :: camelIns t', by rw [camelIns, if_pos hab]⟩
    · exact ⟨camelIns (b :: t'), by rw [camelIns, if_neg hab]⟩

theorem lowerChar_ne_slash {c : Char} (h : c ≠ '/') : lowerChar c ≠ '/' := by
  by_cases hu : 65 ≤ c.toNat ∧ c.toNat ≤ 90
  · intro e
    have hv := toNat_lowerChar_of_upper hu
    rw [e] at hv
    have h47 : ('/' : Char).toNat = 47 := rfl
    rw [h47] at hv
    omega
  · rw [lowerChar_of_not_upper hu]; exact h

theorem lowerChar_ne_hash {c : Char} (h : isAlnum c = true) : lowerChar c ≠ '#' := by
  simp only [isAlnum, isLowerDigit, isUpperAZ, Bool.or_eq_true, Bool.and_eq_true,
    decide_eq_true_eq] at h
  by_cases hu : 65 ≤ c.toNat ∧ c.toNat ≤ 90
  · intro e
    have hv := toNat_lowerChar_of_upper hu
    rw [e] at hv
    have h35 : ('#' : Char).toNat = 35 := rfl
    rw [h35] at hv
    omega
  · rw [lowerChar_of_not_upper hu]
    intro e
    subst e
    have h35 : ('#' : Char).toNat = 35 := rfl
    rw [h35] at h
    omega

theorem normSeg_no_upper (part : List Char) :
    ∀ c ∈ normSeg part, isUpperAZ c = false := by
  intro c hc
  simp only [normSeg, List.mem_map] at hc
  obtain ⟨d, _, rfl⟩ := hc
  exact isUpperAZ_lowerChar d

theorem normSeg_fixed (part : List Char) : normSeg (normSeg part) = normSeg part := by
  have h := normSeg_no_upper part
  show (camelIns (normSeg part)).map lowerChar = normSeg part
  rw [camelIns_of_no_upper _ h, map_lowerChar_of_no_upper _ h]

theorem normSeg_no_slash (part : List Char) (h : '/' ∉ part) : '/' ∉ normSeg part := by
  intro hm
  simp only [normSeg, List.mem_map] at hm
  obtain ⟨d, hd, he⟩ := hm
  rcases mem_camelIns part d hd with hmem | hdash
  · exact lowerChar_ne_slash (fun e => h (e ▸ hmem)) he
  · subst hdash
    exact lowerChar_ne_slash (by decide) he

/-- `normalizeTag` with its default `normalize = true`, written with `normSeg`. -/
theorem normalizeTag_eq (s : String) :
    normalizeTag s = ⟨joinSlash ((splitSlash (stripHash s.data)).map normSeg)⟩ := rfl

/-- `C9`: `normalizeTag` is idempotent on every valid tag string. -/
theorem C9_normalizeTag_idempotent (t : String) (h : validateTag t = true) :
    normalizeTag (normalizeTag t) = normalizeTag t := by
  have hsegs : ∀ seg ∈ splitSlash (stripHash t.data),
      (!seg.isEmpty && seg.all isAlnum) = true := by
    intro seg hseg
    exact List.all_eq_true.mp h seg hseg
  set segs := splitSlash (stripHash t.data) with hsegsdef
  have hne : segs ≠ [] := by
    cases hsd : stripHash t.data with
    | nil => rw [hsegsdef, hsd]; simp [splitSlash]
    | cons c l =>
      rw [hsegsdef, hsd]
      by_cases hc : c = '/'
      · simp [splitSlash, hc]
      · simp only [splitSlash, if_neg hc]
        cases splitSlash l with
        | nil => simp
        | cons s rest => simp
  have hseg_ne : ∀ seg ∈ segs, seg ≠ [] := by
    intro seg hs
    have := hsegs seg hs
    simp only [Bool.and_eq_true, Bool.not_eq_true'] at this
    intro e
    rw [e] at this
    simp [List.isEmpty] at this
  have hseg_alnum : ∀ seg ∈ segs, ∀ c ∈ seg, isAlnum c = true := by
    intro seg hs c hc
    have := hsegs seg hs
    simp only [Bool.and_eq_true] at this
    exact List.all_eq_true.mp this.2 c hc
  have hseg_noslash : ∀ seg ∈ segs, '/' ∉ seg := by
    intro seg hs hm
    exact absurd (hseg_alnum seg hs '/' hm) (by decide)
  obtain ⟨seg0, rest0, hsegs0⟩ := List.exists_cons_of_ne_nil hne
  have hseg0ne : seg0 ≠ [] := hseg_ne seg0 (hsegs0 ▸ List.mem_cons_self _ _)
  obtain ⟨c0, t0, hseg0⟩ := List.exists_cons_of_ne_nil hseg0ne
  obtain ⟨t1, ht1⟩ := camelIns_cons_head c0 t0
  have hns0 : normSeg seg0 = lowerChar c0 :: t1.map lowerChar := by
    rw [hseg0]
    show (camelIns (c0 :: t0)).map lowerChar = _
    rw [ht1]
    rfl
  have hc0alnum : isAlnum c0 = true :=
    hseg_alnum seg0 (hsegs0 ▸ List.mem_cons_self _ _) c0 (hseg0 ▸ List.mem_cons_self _ _)
  have hhead : ∃ u, joinSlash (segs.map normSeg) = lowerChar c0 :: u := by
    rw [hsegs0]
    show ∃ u, joinSlash (normSeg seg0 :: rest0.map normSeg) = lowerChar c0 :: u
    rw [hns0]
    cases hr : rest0.map normSeg with
    | nil => exact ⟨t1.map lowerChar, rfl⟩
    | cons x xs => exact ⟨t1.map lowerChar ++ '/' :: joinSlash (x :: xs), rfl⟩
  obtain ⟨u, hu⟩ := hhead
  have hstripJ : stripHash (joinSlash (segs.map normSeg))
      = joinSlash (segs.map normSeg) := by
    rw [hu]
    simp only [stripHash, if_neg (lowerChar_ne_hash hc0alnum)]
  have hsplit : splitSlash (joinSlash (segs.map normSeg)) = segs.map normSeg := by
    apply splitSlash_joinSlash
    · rw [hsegs0]; simp
    · intro x hx
      simp only [List.mem_map] at hx
      obtain ⟨seg, hseg, rfl⟩ := hx
      exact normSeg_no_slash seg (hseg_noslash seg hseg)
  rw [normalizeTag_eq t, normalizeTag_eq]
  apply congrArg String.mk
  show joinSlash ((splitSlash (stripHash (joinSlash (segs.map normSeg)))).map normSeg)
      = joinSlash (segs.map normSeg)
  rw [hstripJ, hsplit, List.map_map]
  apply congrArg joinSlash
  apply List.map_congr_left
  intro seg _
  exact normSeg_fixed seg

/-- Witness for `C9` at the concrete valid tag `"Project/ActiveTask"`. -/
theorem C9_normalizeTag_idempotent_witness :
    validateTag "Project/ActiveTask" = true ∧
      normalizeTag (normalizeTag "Project/ActiveTask")
        = normalizeTag "Project/ActiveTask" :=
  ⟨by decide, C9_normalizeTag_idempotent "Project/ActiveTask" (by decide)⟩

/-! ## C2: tag removal with and without `preserveChildren` -/

/-- `C2` (evaluation at the failing input): removing `"a"` from the
frontmatter tag set `{"a","a/b","c"}` with `preserveChildren = false` keeps
the strict descendant `"a/b"` — the hierarchical branch of
`removeTagsFromFrontmatter` consults a map populated only when
`preserveChildren` is set, so it never fires — while the inline remover does
delete the descendant, exactly as the claim demands. -/
theorem C2_removeTags_frontmatter_divergence :
    ((removeTagsFromFrontmatter ⟨some ["a", "a/b", "c"], []⟩ ["a"] {}).1.tags?
        = some ["a/b", "c"])
    ∧ ((removeTagsFromFrontmatter ⟨some ["a", "a/b", "c"], []⟩ ["a"]
          {preserveChildren := true}).1.tags? = some ["a/b", "c"])
    ∧ ((removeInlineTags "#a #a/b #c" ["a"] {}).2.removed.map TagChange.tag
        = ["a", "a/b"])
    ∧ ((removeInlineTags "#a #a/b #c" ["a"] {}).2.preserved.map TagChange.tag
        = ["c"])
    ∧ ((removeInlineTags "#a #a/b #c" ["a"]
          {preserveChildren := true}).2.removed.map TagChange.tag = ["a"])
    ∧ ((removeInlineTags "#a #a/b #c" ["a"]
          {preserveChildren := true}).2.preserved.map TagChange.tag
        = ["a/b", "c"]) := by
  refine ⟨rfl, rfl, rfl, rfl, rfl, rfl⟩

/-! ## C3: the parse/stringify round trip -/

/-- `C3` (counterexample): the note `"---\nt: 1\n---\nbody"` is well formed
with a non-empty frontmatter block, yet re-serialization inserts a blank
line after the closing fence, so the round trip is not byte-identical. -/
theorem C3_roundtrip_counterexample :
    (parseNote rawCodec "---\nt: 1\n---\nbody")
        = .ok ⟨"t: 1", "body", true⟩
    ∧ (parseNote rawCodec "---\nt: 1\n---\nbody").map (stringifyNote rawCodec)
        = .ok "---\nt: 1\n---\n\nbody"
    ∧ ("---\nt: 1\n---\n\nbody" : String) ≠ "---\nt: 1\n---\nbody" := by
  refine ⟨rfl, rfl, by decide⟩

theorem splitFmAux_inv (l : List Char) (a b : List Char)
    (h : splitFmAux l = some (a, b)) :
    l = a ++ '\n' :: '-' :: '-' :: '-' :: '\n' :: b := by
  induction l generalizing a with
  | nil => simp [splitFmAux] at h
  | cons c t ih =>
    by_cases hp : (['\n', '-', '-', '-', '\n'].isPrefixOf (c :: t)) = true
    · rw [splitFmAux, if_pos hp] at h
      obtain ⟨rfl, rfl⟩ : [] = a ∧ (c :: t).drop 5 = b := by
        simpa using h
      have hpre := List.isPrefixOf_iff_prefix.mp hp
      obtain ⟨r, hr⟩ := hpre
      simp only [List.nil_append]
      rw [← hr]
      simp
    · rw [splitFmAux, if_neg hp] at h
      simp only [Option.map_eq_some'] at h
      obtain ⟨⟨a', b'⟩, hrec, heq⟩ := h
      obtain ⟨rfl, rfl⟩ : c :: a' = a ∧ b' = b := by
        simpa using heq
      simp only [List.cons_append, List.cons.injEq, true_and]
      exact ih a' hrec

theorem splitFrontmatter_inv (x fmText body : String)
    (h : splitFrontmatter x = some (fmText, body)) :
    x.data = '-' :: '-' :: '-' :: '\n'
      :: (fmText.data ++ '\n' :: '-' :: '-' :: '-' :: '\n' :: body.data) := by
  unfold splitFrontmatter at h
  split at h
  case h_1 rest heq =>
    simp only [Option.map_eq_some'] at h
    obtain ⟨⟨a, b⟩, hrec, hpair⟩ := h
    obtain ⟨hf, hb⟩ : (⟨a⟩ : String) = fmText ∧ (⟨b⟩ : String) = body := by
      simpa using hpair
    rw [heq, splitFmAux_inv rest a b hrec, ← hf, ← hb]
  case h_2 => exact absurd h (by simp)

/-- `C3` (amended): the round trip reproduces the original bytes exactly when
additionally (i) the frontmatter text is fixed by the codec's
stringify-then-trim, and (ii) the body after the closing `---` fence is a
blank line followed by its own trimmed text.  In general `stringifyNote`
inserts a blank line after the fence and trims the body. -/
theorem C3_roundtrip_amended {α : Type} (c : YamlCodec α)
    (x fmText body : String) (m : α)
    (hsplit : splitFrontmatter x = some (fmText, body))
    (hparse : c.parse fmText = some m)
    (hne : c.isEmptyObj m = false)
    (hfm : jsTrim (c.stringify m).data = fmText.data)
    (hbody : body.data = '\n' :: jsTrim body.data) :
    (parseNote c x).map (stringifyNote c) = .ok x := by
  simp only [parseNote, hsplit, hparse, Except.map]
  congr 1
  have hcond : (!(⟨m, body, true⟩ : ParsedNote α).hasFrontmatter
      || c.isEmptyObj (⟨m, body, true⟩ : ParsedNote α).frontmatter) = false := by
    show (!true || c.isEmptyObj m) = false
    rw [hne]
    rfl
  rw [stringifyNote, if_neg (by rw [hcond]; exact Bool.false_ne_true)]
  apply String.ext
  simp only [String.data_append]
  have hx := splitFrontmatter_inv x fmText body hsplit
  rw [hx, hfm]
  conv_rhs => rw [hbody]
  simp

/-- Witness for `C3_roundtrip_amended`: the note
`"---\nt: 1\n---\n\nbody"` (canonical frontmatter text, blank line after the
fence, trimmed body) round-trips byte-identically. -/
theorem C3_roundtrip_amended_witness :
    (parseNote rawCodec "---\nt: 1\n---\n\nbody").map (stringifyNote rawCodec)
      = .ok "---\nt: 1\n---\n\nbody" :=
  C3_roundtrip_amended rawCodec "---\nt: 1\n---\n\nbody" "t: 1" "\nbody" "t: 1"
    rfl rfl rfl rfl rfl


/-! ## C7: hierarchical prefix substitution during rename -/

/-- `C7`: both `updateFrontmatterTags` and `updateInlineTags` run every tag
through `fmRenameStep`; a tag is subject to replacement iff its normalized
form equals the normalized old tag or has it as a strict hierarchy ancestor
(prefix followed by `/`); on a match only that prefix is replaced by the
normalized new tag, keeping the descendant suffix; an unmatched tag gets no
change record and is only normalized.  The closing conjunct checks the
rename and the fence exclusion concretely: `#work/active` becomes
`#projects/active` while a fenced `#work` is untouched. -/
theorem C7_rename_prefix_substitution (tag oldTag newTag : String) :
    ((fmRenameStep [(oldTag, newTag)] true tag).2.isSome = true
        ↔ (normalizeTag tag = normalizeTag oldTag
            ∨ strStartsWith (normalizeTag tag) (normalizeTag oldTag ++ "/") = true))
    ∧ ((fmRenameStep [(oldTag, newTag)] true tag).2.isSome = true →
        (fmRenameStep [(oldTag, newTag)] true tag).1
          = normalizeTag newTag
            ++ ⟨(normalizeTag tag).data.drop (normalizeTag oldTag).data.length⟩)
    ∧ ((fmRenameStep [(oldTag, newTag)] true tag).2 = none →
        (fmRenameStep [(oldTag, newTag)] true tag).1 = normalizeTag tag)
    ∧ updateInlineTags "see #work/active\n```\n#work\n```" [("work", "projects")] true
        = ("see #projects/active\n```\n#work\n```",
            [⟨"work/active", "projects/active", 1⟩]) := by
  by_cases hcond : (normalizeTag tag == normalizeTag oldTag
      || strStartsWith (normalizeTag tag) (normalizeTag oldTag ++ "/")) = true
  · have hstep : fmRenameStep [(oldTag, newTag)] true tag
        = (jsReplacePrefix (normalizeTag tag) (normalizeTag oldTag)
            (normalizeTag newTag),
          some ⟨normalizeTag tag,
            jsReplacePrefix (normalizeTag tag) (normalizeTag oldTag)
              (normalizeTag newTag)⟩) := by
      unfold fmRenameStep
      rw [List.find?_cons_of_pos _ (by simpa using hcond)]
    have hpre : strStartsWith (normalizeTag tag) (normalizeTag oldTag) = true := by
      simp only [Bool.or_eq_true, beq_iff_eq] at hcond
      rcases hcond with he | hp
      · rw [he]
        simp [strStartsWith]
      · simp only [strStartsWith, List.isPrefixOf_iff_prefix] at hp ⊢
        refine List.IsPrefix.trans ?_ hp
        simp
    refine ⟨?_, ?_, ?_, rfl⟩
    · rw [hstep]
      simp only [Option.isSome_some, true_iff]
      simpa only [Bool.or_eq_true, beq_iff_eq] using hcond
    · intro _
      rw [hstep]
      simp only [jsReplacePrefix, if_pos hpre]
    · intro hnone
      rw [hstep] at hnone
      simp at hnone
  · have hstep : fmRenameStep [(oldTag, newTag)] true tag
        = (normalizeTag tag, none) := by
      unfold fmRenameStep
      rw [List.find?_cons_of_neg _ (by simpa using hcond), List.find?_nil]
    refine ⟨?_, ?_, ?_, rfl⟩
    · rw [hstep]
      constructor
      · intro hs
        simp at hs
      · intro hor
        exfalso
        apply hcond
        rcases hor with he | hp
        · simp [he]
        · simp [hp]
    · intro hs
      rw [hstep] at hs
      simp at hs
    · intro _
      rw [hstep]

/-- Witness for `C7_rename_prefix_substitution`: renaming `work` →
`projects` rewrites `work/active` to `projects/active`. -/
theorem C7_rename_prefix_substitution_witness :
    (fmRenameStep [("work", "projects")] true "work/active").2.isSome = true
    ∧ (fmRenameStep [("work", "projects")] true "work/active").1
        = "projects/active" := by
  have h := C7_rename_prefix_substitution "work/active" "work" "projects"
  have hm : (fmRenameStep [("work", "projects")] true "work/active").2.isSome
      = true :=
    h.1.mpr (Or.inr (by decide))
  refine ⟨hm, ?_⟩
  rw [h.2.1 hm]
  rfl

/-! ## C10: whole-array rewrite of frontmatter tags during rename -/

/-- `C10`: when the frontmatter holds a tags array, `updateFrontmatterTags`
(with `normalize = true`) replaces the whole array by the sorted
deduplication of `fmRenameStep` applied to every tag — so every tag,
matching or not, is normalized — and records no change exactly when no tag
matches.  Concretely, renaming `work` → `projects` over
`["work", "CamelTag"]` rewrites the unrelated `"CamelTag"` to
`"camel-tag"`. -/
theorem C10_frontmatter_whole_array_rewrite (ts : List String)
    (extra : List (String × String)) (oldTag newTag : String) :
    ((updateFrontmatterTags ⟨some ts, extra⟩ [(oldTag, newTag)] true).1.tags?
        = some (jsSortStrings (jsDedup
            (ts.map (fun t => (fmRenameStep [(oldTag, newTag)] true t).1)))))
    ∧ ((updateFrontmatterTags ⟨some ts, extra⟩ [(oldTag, newTag)] true).2 = []
        ↔ ∀ t ∈ ts, (fmRenameStep [(oldTag, newTag)] true t).2 = none)
    ∧ (updateFrontmatterTags ⟨some ["work", "CamelTag"], []⟩
          [("work", "projects")] true).1.tags? = some ["camel-tag", "projects"]
    ∧ (updateFrontmatterTags ⟨some ["work", "CamelTag"], []⟩
          [("work", "projects")] true).2
        = [⟨"work", "projects"⟩] := by
  refine ⟨?_, ?_, rfl, rfl⟩
  · simp only [updateFrontmatterTags, List.map_map]
    rfl
  · simp only [updateFrontmatterTags, List.filterMap_map,
      List.filterMap_eq_nil_iff, List.mem_map, Function.comp]


theorem processFileStep_eq (c : YamlCodec Frontmatter)
    (repl : List (String × String)) (nm : Bool)
    (acc : List TagChangeReport × List (String × String) × FS) (p : String) :
    processFileStep c repl nm acc p
      = (acc.1 ++ (fileOutcome c repl nm p (acc.2.2 p)).1,
         acc.2.1 ++ ((fileOutcome c repl nm p (acc.2.2 p)).2.1).toList,
         match (fileOutcome c repl nm p (acc.2.2 p)).2.2 with
         | some nc => acc.2.2.write p nc
         | none => acc.2.2) := by
  unfold processFileStep fileOutcome
  cases h : acc.2.2 p with
  | none => simp
  | some content =>
    by_cases he : content.isEmpty
    · simp [he]
    · simp only [he, Bool.false_eq_true, if_false]
      cases hp : parseNote c content with
      | error e => cases e; simp
      | ok parsed =>
        by_cases hch : ((updateFrontmatterTags parsed.frontmatter repl nm).2.length > 0
            || (updateInlineTags parsed.content repl nm).2.length > 0) = true
        · simp only [hch, if_true]
          simp
        · simp only [hch, Bool.false_eq_true, if_false]
          simp [hch]

theorem processBatch_foldl_iso (c : YamlCodec Frontmatter)
    (repl : List (String × String)) (nm : Bool) (fs0 : FS) :
    ∀ (batch : List String) (s : List TagChangeReport)
      (f : List (String × String)) (fs : FS),
      batch.Nodup → (∀ p ∈ batch, fs p = fs0 p) →
      (batch.foldl (processFileStep c repl nm) (s, f, fs)).1
          = s ++ batch.flatMap (fun p => (fileOutcome c repl nm p (fs0 p)).1)
      ∧ (batch.foldl (processFileStep c repl nm) (s, f, fs)).2.1
          = f ++ batch.filterMap (fun p => (fileOutcome c repl nm p (fs0 p)).2.1)
      ∧ ∀ q, (batch.foldl (processFileStep c repl nm) (s, f, fs)).2.2 q
          = if q ∈ batch then
              match (fileOutcome c repl nm q (fs0 q)).2.2 with
              | some nc => some nc
              | none => fs0 q
            else fs q := by
  intro batch
  induction batch with
  | nil =>
    intro s f fs _ _
    refine ⟨by simp, by simp, ?_⟩
    intro q
    simp
  | cons p rest ih =>
    intro s f fs hnd hfs
    have hp_notin : p ∉ rest := (List.nodup_cons.mp hnd).1
    have hrest_nd : rest.Nodup := (List.nodup_cons.mp hnd).2
    have hfsp : fs p = fs0 p := hfs p (by simp)
    have hstep := processFileStep_eq c repl nm (s, f, fs) p
    rw [show (s, f, fs).2.2 = fs from rfl] at hstep
    rw [hfsp] at hstep
    have hfold : (p :: rest).foldl (processFileStep c repl nm) (s, f, fs)
        = rest.foldl (processFileStep c repl nm)
            (processFileStep c repl nm (s, f, fs) p) := rfl
    set O := fileOutcome c repl nm p (fs0 p) with hO
    set fs1 : FS := (match O.2.2 with
      | some nc => FS.write fs p nc
      | none => fs) with hfs1
    have hstep' : processFileStep c repl nm (s, f, fs) p
        = (s ++ O.1, f ++ O.2.1.toList, fs1) := by
      rw [hstep]
    have hfs1_agree : ∀ x ∈ rest, fs1 x = fs0 x := by
      intro x hx
      have hxp : x ≠ p := fun e => hp_notin (e ▸ hx)
      have := hfs x (by simp [hx])
      rw [hfs1]
      cases O.2.2 with
      | some nc =>
        simp only [FS.write, if_neg hxp]
        exact this
      | none => exact this
    have ihh := ih (s ++ O.1) (f ++ O.2.1.toList) fs1 hrest_nd hfs1_agree
    rw [hfold, hstep']
    refine ⟨?_, ?_, ?_⟩
    · rw [ihh.1]
      simp [hO]
    · rw [ihh.2.1]
      rw [List.filterMap_cons]
      cases ho : O.2.1 with
      | none => simp [ho]
      | some e => simp [ho]
    · intro q
      rw [ihh.2.2 q]
      by_cases hqr : q ∈ rest
      · simp [hqr, List.mem_cons]
      · by_cases hqp : q = p
        · subst hqp
          simp only [hqr, if_false, List.mem_cons, true_or, if_true]
          rw [hfs1]
          cases O.2.2 with
          | some nc => simp [FS.write]
          | none => exact hfsp
        · have : q ∉ (p :: rest) := by
            simp [hqp, hqr]
          simp only [hqr, if_false, if_neg this]
          rw [hfs1]
          cases O.2.2 with
          | some nc => simp [FS.write, hqp]
          | none => rfl

/-- `C6`: `processBatch` is per-file compositional — over a duplicate-free
batch, every file's success entries, failure entry and written content are a
function of that file's own initial content alone (`fileOutcome`), so a
failure on one note never aborts or alters the processing of sibling
notes; moreover a full `renameTag` run over the three-note vault with
`batchSize = 1` (so the unreadable note occupies its own batch) still
processes the later batch, recording one failure and two successes. -/
theorem C6_batch_failure_isolation (c : YamlCodec Frontmatter) (fs0 : FS)
    (files : List String) (start batchSize : Nat)
    (repl : List (String × String)) (nm : Bool)
    (h : ((files.drop start).take batchSize).Nodup) :
    (processBatch c fs0 files start batchSize repl nm).1
        = ((files.drop start).take batchSize).flatMap
            (fun p => (fileOutcome c repl nm p (fs0 p)).1)
    ∧ (processBatch c fs0 files start batchSize repl nm).2.1
        = ((files.drop start).take batchSize).filterMap
            (fun p => (fileOutcome c repl nm p (fs0 p)).2.1)
    ∧ (∀ q, (processBatch c fs0 files start batchSize repl nm).2.2 q
        = if q ∈ (files.drop start).take batchSize then
            match (fileOutcome c repl nm q (fs0 q)).2.2 with
            | some nc => some nc
            | none => fs0 q
          else fs0 q)
    ∧ (renameTag noYaml fs3 ["/v/a.md", "/v/b.md", "/v/c.md"]
          "work" "projects" true 1).map
          (fun r => (r.1.failed, r.1.successful.map TagChangeReport.filePath))
        = .ok ([("/v/b.md", "File not found or cannot be read")],
            ["/v/a.md", "/v/c.md"]) := by
  have hiso := processBatch_foldl_iso c repl nm fs0
    ((files.drop start).take batchSize) [] [] fs0 h (fun _ _ => rfl)
  unfold processBatch
  exact ⟨by rw [hiso.1]; simp, by rw [hiso.2.1]; simp, hiso.2.2, rfl⟩

/-- Witness for `C6_batch_failure_isolation`: in a batch over three notes
whose second is unreadable, the report holds exactly one failure, the other
two notes are still processed, and note a's content is rewritten. -/
theorem C6_batch_failure_isolation_witness :
    (processBatch noYaml fs3 ["/v/a.md", "/v/b.md", "/v/c.md"] 0 50
        [("work", "projects")] true).2.1
      = [("/v/b.md", "File not found or cannot be read")]
    ∧ (processBatch noYaml fs3 ["/v/a.md", "/v/b.md", "/v/c.md"] 0 50
        [("work", "projects")] true).1.map TagChangeReport.filePath
      = ["/v/a.md", "/v/c.md"]
    ∧ (processBatch noYaml fs3 ["/v/a.md", "/v/b.md", "/v/c.md"] 0 50
        [("work", "projects")] true).2.2 "/v/a.md" = some "#projects a" := by
  have h := C6_batch_failure_isolation noYaml fs3
    ["/v/a.md", "/v/b.md", "/v/c.md"] 0 50 [("work", "projects")] true
    (by decide)
  refine ⟨?_, ?_, ?_⟩
  · rw [h.2.1]; rfl
  · rw [h.1]; rfl
  · rw [h.2.2.1 "/v/a.md"]; rfl

/-! ## C5: batch operations report instead of throwing -/

/-- `C5` (counterexample to the claim as stated): a vault-wide rename over a
single unreadable note achieves zero successes with one failure, yet
`renameTag` returns its report instead of throwing; `addTags` on a missing
file likewise returns a result with `success = false`. -/
theorem C5_zero_success_returns_report :
    (renameTag noYaml (fun _ => none) ["/v/n1.md"] "work" "projects").isOk
      = true
    ∧ ((renameTag noYaml (fun _ => none) ["/v/n1.md"] "work"
          "projects").toOption.map (fun r => (r.1.successful, r.1.failed)))
      = some ([], [("/v/n1.md", "File not found or cannot be read")])
    ∧ (addTags noYaml (fun _ => none) "/v" ["n1.md"] ["work"]).1
      = ⟨false, 0, 1, [("n1.md", "File not found")], [("n1.md", [])]⟩ := by
  refine ⟨rfl, rfl, rfl⟩

/-- `C5` (amended): batch/report operations never throw for per-file
failures — `renameTag` throws only for an invalid tag format and otherwise
returns a report, `addTags` always returns a result covering every requested
file whose `success` flag is down exactly when some per-file failure was
recorded. -/
theorem C5_batch_reports_carry_failures (c : YamlCodec Frontmatter) (fs : FS)
    (files : List String) (oldTag newTag vaultPath : String)
    (tags : List String) (loc : TagAddLocation) (nm : Bool)
    (pos : TagAddPosition) (bs : Nat)
    (ho : validateTag oldTag = true) (hn : validateTag newTag = true) :
    (renameTag c fs files oldTag newTag nm bs).isOk = true
    ∧ (addTags c fs vaultPath files tags loc nm pos).1.totalCount
        = files.length
    ∧ ((addTags c fs vaultPath files tags loc nm pos).1.success = true
        ↔ (addTags c fs vaultPath files tags loc nm pos).1.failedItems
            = []) := by
  refine ⟨?_, rfl, ?_⟩
  · unfold renameTag
    rw [ho, hn]
    rfl
  · have hsf : (addTags c fs vaultPath files tags loc nm pos).1.success
        = (addTags c fs vaultPath files tags loc nm pos).1.failedItems.isEmpty :=
      rfl
    rw [hsf, List.isEmpty_iff]

/-- Witness for `C5_batch_reports_carry_failures` on the three-note vault
with valid tags. -/
theorem C5_batch_reports_carry_failures_witness :
    validateTag "work" = true ∧ validateTag "projects" = true
    ∧ (renameTag noYaml fs3 ["/v/a.md", "/v/b.md", "/v/c.md"] "work"
        "projects").isOk = true :=
  ⟨by decide, by decide,
    (C5_batch_reports_carry_failures noYaml fs3
      ["/v/a.md", "/v/b.md", "/v/c.md"] "work" "projects" "/v" []
      TagAddLocation.both true TagAddPosition.«end» 50
      (by decide) (by decide)).1⟩

/-! ## C1: vault containment validation -/

/-- `C1` (evaluation at the failing input): `validateVaultPath` can never
throw, for any vault root and target — the un-awaited Promise returned by
the `async` `checkPathSafety` is always truthy, so the guard condition is
always false — even though the boolean core classifies `/outside/evil.md`
as outside `/vault`.  Moreover the core accepts a target equal to the vault
root (the claim says equality must fail), fails closed only inside
`checkPathSafety` (resolution errors yield `false`, which
`validateVaultPath` then ignores), and the guarded join passes traversal
segments straight through: `safeJoinPath "/vault" ["..","etc","passwd"]`
succeeds with `/etc/passwd`. -/
theorem C1_validateVaultPath_never_throws :
    (∀ (realp : String → Option String) (vaultPath targetPath : String),
        validateVaultPathThrows realp vaultPath targetPath = false)
    ∧ checkPathSafety realpId "/vault" "/outside/evil.md" = .ok false
    ∧ validateVaultPathThrows realpId "/vault" "/outside/evil.md" = false
    ∧ checkPathSafety realpId "/vault" "/vault" = .ok true
    ∧ checkPathSafety (fun _ => none) "/vault" "/vault/x.md" = .ok false
    ∧ safeJoinPath realpId "/vault" ["..", "etc", "passwd"]
        = .ok "/etc/passwd" := by
  refine ⟨fun _ _ _ => rfl, rfl, rfl, rfl, rfl, rfl⟩

/-! ## C4: backup, rollback, and the compound failure -/

/-- `C4` (counterexample to the claim as stated): when the write fails, the
first restore attempt fails, and the outer handler's retry then succeeds,
the propagated error is the compound `rollbackFailure` — whose message
states the backup was preserved — yet the backup file has been deleted. -/
theorem C4_compound_error_backup_not_preserved :
    ((editNote .replace "/v/note.md" "new" 7
        ⟨fun p => if p = "/v/note.md" then some "old" else none,
          [true, true, false, false, true, true]⟩).result
      = .error (.rollbackFailure (.fsErr "writeFile" "/v/note.md")
          (.fsErr "copyFile" "/v/note.md") "/v/note.md.7.backup"))
    ∧ ((editNote .replace "/v/note.md" "new" 7
        ⟨fun p => if p = "/v/note.md" then some "old" else none,
          [true, true, false, false, true, true]⟩).st.fs
        "/v/note.md.7.backup" = none)
    ∧ ((editNote .replace "/v/note.md" "new" 7
        ⟨fun p => if p = "/v/note.md" then some "old" else none,
          [true, true, false, false, true, true]⟩).st.fs
        "/v/note.md" = some "old") := by
  refine ⟨rfl, rfl, rfl⟩

/-- `C4` (amended): for a replace edit of an existing note, a backup is
taken before the write, and (a) if the write fails and the restore
succeeds, the original bytes are back on disk and the backup is deleted
before the (wrapped) original error propagates; (b) if the restore fails
persistently, the compound `rollbackFailure` naming both errors propagates
and the backup holding the original bytes is preserved (it is deleted only
when the outer handler's retry succeeds — the counterexample); (c) on
success the new content is written and the backup removed. -/
theorem C4_replace_backup_rollback (fs : FS) (orig newC : String)
    (h : fs "/v/note.md" = some orig) :
    (((editNote .replace "/v/note.md" newC 7
          ⟨fs, [true, true, false, true, true]⟩).result
        = .error (.wrapped (.fsErr "writeFile" "/v/note.md")))
      ∧ ((editNote .replace "/v/note.md" newC 7
          ⟨fs, [true, true, false, true, true]⟩).st.fs "/v/note.md"
        = some orig)
      ∧ ((editNote .replace "/v/note.md" newC 7
          ⟨fs, [true, true, false, true, true]⟩).st.fs
          "/v/note.md.7.backup" = none))
    ∧ (((editNote .replace "/v/note.md" newC 7
          ⟨fs, [true, true, false, false, false]⟩).result
        = .error (.rollbackFailure (.fsErr "writeFile" "/v/note.md")
            (.fsErr "copyFile" "/v/note.md") "/v/note.md.7.backup"))
      ∧ ((editNote .replace "/v/note.md" newC 7
          ⟨fs, [true, true, false, false, false]⟩).st.fs "/v/note.md"
        = some orig)
      ∧ ((editNote .replace "/v/note.md" newC 7
          ⟨fs, [true, true, false, false, false]⟩).st.fs
          "/v/note.md.7.backup" = some orig))
    ∧ (((editNote .replace "/v/note.md" newC 7 ⟨fs, []⟩).result = .ok ())
      ∧ ((editNote .replace "/v/note.md" newC 7 ⟨fs, []⟩).st.fs "/v/note.md"
        = some newC)
      ∧ ((editNote .replace "/v/note.md" newC 7 ⟨fs, []⟩).st.fs
          "/v/note.md.7.backup" = none)) := by
  have hbp : ("/v/note.md." ++ toString 7 ++ ".backup" : String)
      = "/v/note.md.7.backup" := by decide
  have hne : ("/v/note.md" : String) ≠ "/v/note.md.7.backup" := by decide
  have hne' : ("/v/note.md.7.backup" : String) ≠ "/v/note.md" := by decide
  refine ⟨⟨?_, ?_, ?_⟩, ⟨?_, ?_, ?_⟩, ⟨?_, ?_, ?_⟩⟩ <;>
    simp [editNote, fsCopyFile, fsWriteFile, fsUnlink, fsReadFile, takeSched,
      editInnerCatch, editOuterCatch, FS.write, FS.erase, handleFsError,
      JsError.isMcpError, applyEdit, hbp, h, hne, hne']

/-- Witness for `C4_replace_backup_rollback` on a one-note filesystem. -/
theorem C4_replace_backup_rollback_witness :
    ((fun p => if p = "/v/note.md" then some "old" else none : FS)
        "/v/note.md" = some "old")
    ∧ ((editNote .replace "/v/note.md" "new" 7
        ⟨fun p => if p = "/v/note.md" then some "old" else none,
          [true, true, false, true, true]⟩).st.fs "/v/note.md"
      = some "old") :=
  ⟨rfl,
    (C4_replace_backup_rollback
      (fun p => if p = "/v/note.md" then some "old" else none)
      "old" "new" rfl).1.2.1⟩

/-! ## C8: link rewriting on rename -/

theorem updateVaultLinks_foldl (fs0 : FS) (vaultPath oldPath : String)
    (newPath : Option String) :
    ∀ (files : List String) (n : Nat) (fs : FS),
      files.Nodup →
      (∀ f ∈ files, fs f = fs0 f) →
      (∀ f ∈ files, linkNotSkipped vaultPath newPath f = true →
        (fs0 f).isSome = true) →
      ∃ fsF,
        files.foldl (updateVaultLinksStep vaultPath oldPath newPath)
          (.ok (n, fs))
        = .ok (n + (files.filter (linkNotSkipped vaultPath newPath)).countP
            (fileChanged fs0 oldPath newPath), fsF)
        ∧ (∀ f ∈ files, linkNotSkipped vaultPath newPath f = true →
            fsF f = (fs0 f).map (linkTransform oldPath newPath))
        ∧ (∀ q, (q ∉ files ∨ linkNotSkipped vaultPath newPath q = false) →
            fsF q = fs q) := by
  intro files
  induction files with
  | nil =>
    intro n fs _ _ _
    exact ⟨fs, by simp, by simp, fun q _ => rfl⟩
  | cons p rest ih =>
    intro n fs hnd hagree hread
    have hp_notin : p ∉ rest := (List.nodup_cons.mp hnd).1
    have hrest_nd : rest.Nodup := (List.nodup_cons.mp hnd).2
    have hfsp : fs p = fs0 p := hagree p (by simp)
    by_cases hskip : linkNotSkipped vaultPath newPath p = true
    · -- p is processed
      obtain ⟨content, hcontent⟩ :=
        Option.isSome_iff_exists.mp (hread p (by simp) hskip)
      set nc := linkTransform oldPath newPath content with hnc
      have hfile : updateLinksInFile fs p oldPath newPath
          = .ok (nc != content,
              if nc != content then fs.write p nc else fs) := by
        unfold updateLinksInFile
        rw [hfsp, hcontent]
        simp only [← hnc]
        by_cases hch : nc = content
        · simp [hch]
        · simp [hch, Ne.symm hch]
      have hchanged : fileChanged fs0 oldPath newPath p = (nc != content) := by
        unfold fileChanged
        rw [hcontent]
      set fs1 : FS := if nc != content then fs.write p nc else fs with hfs1
      have hagree1 : ∀ f ∈ rest, fs1 f = fs0 f := by
        intro f hf
        have hfp : f ≠ p := fun e => hp_notin (e ▸ hf)
        rw [hfs1]
        by_cases hch : (nc != content) = true
        · simp only [hch, if_true, FS.write, if_neg hfp]
          exact hagree f (by simp [hf])
        · simp only [hch, if_false]
          exact hagree f (by simp [hf])
      obtain ⟨fsF, hfold, hproc, hframe⟩ :=
        ih (if nc != content then n + 1 else n) fs1 hrest_nd hagree1
          (fun f hf => hread f (by simp [hf]))
      refine ⟨fsF, ?_, ?_, ?_⟩
      · rw [List.foldl_cons]
        have hstep : updateVaultLinksStep vaultPath oldPath newPath
            (.ok (n, fs)) p
            = .ok (if nc != content then n + 1 else n, fs1) := by
          simp only [updateVaultLinksStep, hskip, Bool.not_true,
            Bool.false_eq_true, if_false, hfile]
          by_cases hch : (nc != content) = true
          · simp [hch]
          · rw [Bool.not_eq_true] at hch
            simp [hch]
        rw [hstep, hfold]
        rw [List.filter_cons_of_pos hskip, List.countP_cons]
        by_cases hch : (nc != content) = true
        · simp only [hchanged, hch, if_true]
          congr 2
          omega
        · rw [Bool.not_eq_true] at hch
          simp only [hchanged, hch, Bool.false_eq_true, if_false]
          congr 2
      · intro f hf hns
        rcases List.mem_cons.mp hf with rfl | hfr
        · have hfr : fsF f = fs1 f := hframe f (Or.inl hp_notin)
          rw [hfr, hfs1, hcontent]
          by_cases hch : (nc != content) = true
          · simp only [hch, if_true, FS.write, if_pos rfl]
            simp [hnc]
          · have heq : nc = content := by simpa using hch
            simp only [hch, Bool.false_eq_true, if_false, hfsp, hcontent]
            simp [← hnc, heq]
        · exact hproc f hfr hns
      · intro q hq
        have hq' : q ∉ rest ∨ linkNotSkipped vaultPath newPath q = false := by
          rcases hq with hq | hq
          · exact Or.inl (fun hm => hq (by simp [hm]))
          · exact Or.inr hq
        rw [hframe q hq', hfs1]
        by_cases hch : (nc != content) = true
        · simp only [hch, if_true, FS.write]
          have hqp : q ≠ p := by
            rcases hq with hq | hq
            · exact fun e => hq (by simp [e])
            · intro e
              rw [e, hskip] at hq
              exact absurd hq (by simp)
          rw [if_neg hqp]
        · simp only [hch, Bool.false_eq_true, if_false]
    · -- p is skipped
      have hskip' : linkNotSkipped vaultPath newPath p = false := by
        simpa using hskip
      obtain ⟨fsF, hfold, hproc, hframe⟩ :=
        ih n fs hrest_nd (fun f hf => hagree f (by simp [hf]))
          (fun f hf => hread f (by simp [hf]))
      refine ⟨fsF, ?_, ?_, ?_⟩
      · rw [List.foldl_cons]
        have hstep : updateVaultLinksStep vaultPath oldPath newPath
            (.ok (n, fs)) p = .ok (n, fs) := by
          simp only [updateVaultLinksStep, hskip', Bool.not_false, if_true]
        rw [hstep, hfold, List.filter_cons_of_neg (by simp [hskip'])]
      · intro f hf hns
        rcases List.mem_cons.mp hf with rfl | hfr
        · rw [hns] at hskip'
          exact absurd hskip' (by simp)
        · exact hproc f hfr hns
      · intro q hq
        apply hframe
        rcases hq with hq | hq
        · exact Or.inl (fun hm => hq (by simp [hm]))
        · exact Or.inr hq

theorem replaceScanAux_nil (matchAt : List Char → Option (List Char × List Char))
    (mk : List Char → List Char) (fuel : Nat) :
    replaceScanAux matchAt mk fuel [] = [] := by
  cases fuel <;> rfl

theorem takeWhile_ne_rbracket (a r : List Char) (h : ']' ∉ a) :
    (a ++ ']' :: r).takeWhile (fun c => c ≠ ']') = a := by
  induction a with
  | nil => simp
  | cons c t ihh =>
    have hc : c ≠ ']' := fun e => h (by simp [e])
    have ht : ']' ∉ t := fun m => h (by simp [m])
    simp only [List.cons_append, List.takeWhile_cons, decide_eq_true_eq]
    rw [if_pos hc, ihh ht]

theorem wikiMatchAt_exact (old aliasTxt : List Char) (h : ']' ∉ aliasTxt) :
    wikiMatchAt old ('[' :: '[' :: (old ++ '|' :: (aliasTxt ++ [']', ']'])))
      = some ('|' :: aliasTxt, []) := by
  have hpre : old.isPrefixOf (old ++ '|' :: (aliasTxt ++ [']', ']'])) = true := by
    rw [List.isPrefixOf_iff_prefix]
    exact ⟨_, rfl⟩
  have htw : (aliasTxt ++ [']', ']']).takeWhile (fun c => c ≠ ']') = aliasTxt :=
    takeWhile_ne_rbracket aliasTxt [']'] h
  simp only [wikiMatchAt, hpre, if_true, List.drop_left, htw]

/-! The claim theorem for the link rewriter. -/

/-- `C8`: over a duplicate-free, readable vault file list, a rename
`updateVaultLinks` returns exactly the number of files whose content
actually changed (scanned-but-unchanged files are not counted), rewrites
every processed file by the link transform (wiki links and markdown links
by base name, the moved note's own file skipped), and the wiki rewrite
preserves an arbitrary alias segment. -/
theorem C8_link_rewrite_count (fs0 : FS) (vaultPath : String)
    (files : List String) (oldPath newPath : String)
    (hnd : files.Nodup)
    (hread : ∀ f ∈ files, linkNotSkipped vaultPath (some newPath) f = true →
      (fs0 f).isSome = true) :
    (∃ fsF,
      updateVaultLinks fs0 vaultPath files oldPath (some newPath)
        = .ok ((files.filter (linkNotSkipped vaultPath (some newPath))).countP
            (fileChanged fs0 oldPath (some newPath)), fsF)
      ∧ ∀ f ∈ files, linkNotSkipped vaultPath (some newPath) f = true →
          fsF f = (fs0 f).map (linkTransform oldPath (some newPath)))
    ∧ ∀ (old new aliasTxt : List Char), ']' ∉ aliasTxt →
        replaceScan (wikiMatchAt old)
          (fun grp => '[' :: '[' :: new ++ grp ++ [']', ']'])
          ('[' :: '[' :: (old ++ '|' :: (aliasTxt ++ [']', ']'])))
        = '[' :: '[' :: (new ++ '|' :: (aliasTxt ++ [']', ']'])) := by
  constructor
  · obtain ⟨fsF, hfold, hproc, _⟩ :=
      updateVaultLinks_foldl fs0 vaultPath oldPath (some newPath) files 0 fs0
        hnd (fun _ _ => rfl) hread
    refine ⟨fsF, ?_, hproc⟩
    unfold updateVaultLinks
    rw [hfold]
    simp
  · intro old new aliasTxt h
    have hm := wikiMatchAt_exact old aliasTxt h
    unfold replaceScan
    simp only [replaceScanAux, hm]
    simp

/-- Witness for `C8_link_rewrite_count`: renaming B→C in the two-note vault
updates note A's three links, preserves the alias, skips the moved note,
and reports exactly one updated file. -/
theorem C8_link_rewrite_count_witness :
    (updateVaultLinks fsL "/v" ["/v/A.md", "/v/C.md"] "B.md"
        (some "C.md")).map (fun r => r.1) = .ok 1
    ∧ (updateVaultLinks fsL "/v" ["/v/A.md", "/v/C.md"] "B.md"
        (some "C.md")).map (fun r => r.2 "/v/A.md")
      = .ok (some "see [[C]] and [[C|alias]] and [text](C.md)") := by
  obtain ⟨⟨fsF, h1, h2⟩, _⟩ :=
    C8_link_rewrite_count fsL "/v" ["/v/A.md", "/v/C.md"] "B.md" "C.md"
      (by decide) (by decide)
  constructor
  · rw [h1]
    rfl
  · rw [h1]
    simp only [Except.map]
    rw [h2 "/v/A.md" (by decide) (by decide)]
    rfl

end ObsidianMcp
